import Mathlib

/-!
Verification of the migration-graph, action-chain and type-conversion core of
mongoengine-migrate against its specification.

The development embeds, as executable Lean definitions:
* `graph.py` — migrations, the derived parent/children adjacency, and the
  counter-based depth-first walks `walk_down` / `walk_up`;
* `fields/registry.py` — the field-type conversion matrix and its fill loop;
* `fields/base.py` — `convert_type` resolution and the `change_required`,
  `change_primary_key`, `change_choices` alter handlers;
* `actions/factory.py` — `build_actions_chain` and its helpers.

Parts of the running system that are not part of the core source (the
dictdiffer diff/patch utility, the mongoengine field-class hierarchy, pymongo
cursor behaviour, `utils.get_closest_parent`, and the Action/AlterDiff base
classes) are modelled from the specification; each such definition carries a
doc comment saying so.
-/

set_option maxHeartbeats 1000000

namespace MG

/-- One migration record: file name, declared dependency name list and the
applied flag (the `Migration` slot object of graph.py). -/
structure Migration where
  name : String
  dependencies : List String
  applied : Bool
deriving DecidableEq, Repr

/-- Names of all migrations in graph insertion order: the key set of the
`_migrations` dict of `MigrationsGraph`. -/
def names (g : List Migration) : List String := g.map (fun m => m.name)

/-- Name lookup, `self._migrations[name]` (first match in insertion order). -/
def byName (g : List Migration) (n : String) : Option Migration :=
  g.find? (fun m => m.name == n)

/-- The `_parents` adjacency built by `MigrationsGraph.add`: the parents of the
node named `n` are the migrations whose name occurs in `n`'s dependency list.
`add` skips a partner with the same name, so a self dependency produces no
edge. -/
def parentNames (g : List Migration) (n : String) : List String :=
  match byName g n with
  | some m =>
      (g.filter (fun p => p.name != m.name && m.dependencies.contains p.name)).map
        (fun p => p.name)
  | none => []

/-- The `_children` adjacency built by `MigrationsGraph.add`: the children of
the node named `n` are the migrations that list `n` among their dependencies
(self edges skipped, as in `add`). -/
def childrenNames (g : List Migration) (n : String) : List String :=
  (g.filter (fun c => c.name != n && c.dependencies.contains n)).map (fun c => c.name)

/-- Applied flag of the migration named `n` (`False` default of the slot). -/
def appliedB (g : List Migration) (n : String) : Bool :=
  match byName g n with
  | some m => m.applied
  | none => false

/-- `MigrationsGraph.initial`: the first migration, in insertion order, whose
parent list is empty; `None` when every node has parents. -/
def initial (g : List Migration) : Option Migration :=
  g.find? (fun m => (parentNames g m.name).isEmpty)

/-- `MigrationsGraph.last`: the first migration whose children list is empty. -/
def lastMig (g : List Migration) : Option Migration :=
  g.find? (fun m => (childrenNames g m.name).isEmpty)

/-- Read a node counter (the `_node_counters` dict of the walks). -/
def getCounter (cnt : List (String × Int)) (n : String) : Option Int :=
  (cnt.find? (fun p => p.1 == n)).map (fun p => p.2)

/-- Write a node counter: replace the existing binding or append a new one
(dict item assignment). -/
def setCounter (cnt : List (String × Int)) (n : String) (v : Int) : List (String × Int) :=
  match cnt with
  | [] => [(n, v)]
  | p :: rest => if p.1 == n then (n, v) :: rest else p :: setCounter rest n v

/-- Traversal outcome tags: the closed-cycle `MigrationError` that walk_down
and walk_up raise, or exhaustion of the step budget of the embedding. -/
inductive WalkErr
  | cycle (n : String)
  | fuel
deriving DecidableEq, Repr

/-- Step-relation embedding of the recursive generator walks of graph.py.
The worklist is the stack of pending recursive calls (the `yield from` loop
over the next nodes, left to right).  Each step pops one node and runs the
body of `walk_down` / `walk_up`: `_node_counters.setdefault(name, deg or 1)`
followed by the decrement; a still positive counter stops this depth, a
negative counter raises the closed-cycle error, and a zero counter yields the
node (subject to the applied filter `keep`) and pushes its next nodes in
order. `fuel` bounds the number of steps; the lemmas below show a computable
bound under which it is never exhausted. -/
def walkAux (nextOf : String → List String) (initOf : String → Nat) (keep : String → Bool) :
    Nat → List String → List (String × Int) → List String →
      Except WalkErr (List String × List (String × Int))
  | _, [], cnt, out => .ok (out, cnt)
  | 0, _ :: _, _, _ => .error .fuel
  | fuel + 1, n :: rest, cnt, out =>
    if 0 < (getCounter cnt n).getD (initOf n : Int) - 1 then
      walkAux nextOf initOf keep fuel rest
        (setCounter cnt n ((getCounter cnt n).getD (initOf n : Int) - 1)) out
    else if (getCounter cnt n).getD (initOf n : Int) - 1 < 0 then
      .error (.cycle n)
    else
      walkAux nextOf initOf keep fuel (nextOf n ++ rest)
        (setCounter cnt n ((getCounter cnt n).getD (initOf n : Int) - 1))
        (if keep n then out ++ [n] else out)

/-- `MigrationsGraph.walk_down(from_node, unapplied_only)`: the initial counter
of a node is `len(parents) or 1`, traversal follows child edges, and a node is
yielded unless it is applied and `unapplied_only` is set.  A `None` start
yields nothing. -/
def walk_down (g : List Migration) (from_node : Option Migration) (unapplied_only : Bool)
    (fuel : Nat) : Except WalkErr (List String × List (String × Int)) :=
  match from_node with
  | none => .ok ([], [])
  | some m =>
    walkAux (fun n => childrenNames g n)
      (fun n => max (parentNames g n).length 1)
      (fun n => !(appliedB g n && unapplied_only))
      fuel [m.name] [] []

/-- `MigrationsGraph.walk_up(from_node, applied_only)`: the mirror walk, with
`len(children) or 1` counters, parent edges as next nodes, and the applied
filter `from_node.applied or not applied_only`. -/
def walk_up (g : List Migration) (from_node : Option Migration) (applied_only : Bool)
    (fuel : Nat) : Except WalkErr (List String × List (String × Int)) :=
  match from_node with
  | none => .ok ([], [])
  | some m =>
    walkAux (fun n => parentNames g n)
      (fun n => max (childrenNames g n).length 1)
      (fun n => appliedB g n || !applied_only)
      fuel [m.name] [] []

/-- Potential of a counter state: one more than each current counter value
(the value a not-yet-touched node would get), summed over the node set.  Every
walk step strictly decreases it, so it bounds the number of steps. -/
def phi (v : List String) (initOf : String → Nat) (cnt : List (String × Int)) : Nat :=
  (v.map (fun n => ((getCounter cnt n).getD (initOf n : Int)).toNat + 1)).sum

/-- Sufficient step budget for `walk_down` on graph `g`. -/
def fuelBoundDown (g : List Migration) : Nat :=
  phi (names g) (fun n => max (parentNames g n).length 1) [] + 1

/-- Sufficient step budget for `walk_up` on graph `g`. -/
def fuelBoundUp (g : List Migration) : Nat :=
  phi (names g) (fun n => max (childrenNames g n).length 1) [] + 1

/-- Bounded reachability along a successor function: `reachIn nf k a b` holds
when some directed path of between 1 and `k` edges leads from `a` to `b`. -/
def reachIn (nf : String → List String) : Nat → String → String → Bool
  | 0, _, _ => false
  | k + 1, a, b => (nf a).any (fun c => c == b || reachIn nf k c b)

/-- Decidable acyclicity of the migration digraph: no node lies on a directed
cycle of length at most the number of nodes (every directed cycle contains
such a cycle). -/
def Acyclic (g : List Migration) : Prop :=
  ∀ n ∈ names g, reachIn (childrenNames g) (names g).length n n = false

instance (g : List Migration) : Decidable (Acyclic g) := by
  unfold Acyclic; infer_instance

/-! Bookkeeping lemmas for the counter dictionary. -/

theorem getCounter_set_self (cnt : List (String × Int)) (n : String) (v : Int) :
    getCounter (setCounter cnt n v) n = some v := by
  induction cnt with
  | nil => simp [setCounter, getCounter]
  | cons p rest ih =>
    by_cases h : p.1 = n
    · simp [setCounter, h, getCounter]
    · have hb : (p.1 == n) = false := by simpa using h
      simp only [setCounter, hb, Bool.false_eq_true, if_false, getCounter, List.find?_cons, hb]
      simpa [getCounter] using ih

theorem getCounter_set_ne (cnt : List (String × Int)) (n m : String) (v : Int) (h : m ≠ n) :
    getCounter (setCounter cnt n v) m = getCounter cnt m := by
  induction cnt with
  | nil =>
    have hb : (n == m) = false := by simpa using (Ne.symm h)
    simp [setCounter, getCounter, hb]
  | cons p rest ih =>
    by_cases hp : p.1 = n
    · have hb : (p.1 == n) = true := by simpa using hp
      have hb2 : (n == m) = false := by simpa using (Ne.symm h)
      have hb3 : (p.1 == m) = false := by simpa using (hp ▸ (Ne.symm h) : p.1 ≠ m)
      simp [setCounter, hb, getCounter, hb2, hb3]
    · have hb : (p.1 == n) = false := by simpa using hp
      by_cases hm : p.1 = m
      · have hbm : (p.1 == m) = true := by simpa using hm
        simp only [setCounter, hb, Bool.false_eq_true, if_false, getCounter, List.find?_cons, hbm]
      · have hbm : (p.1 == m) = false := by simpa using hm
        simp only [setCounter, hb, Bool.false_eq_true, if_false, getCounter, List.find?_cons, hbm]
        simpa [getCounter] using ih

theorem setCounter_keys (cnt : List (String × Int)) (n : String) (v : Int) :
    ∀ p ∈ setCounter cnt n v, p.1 = n ∨ p ∈ cnt := by
  induction cnt with
  | nil => intro p hp; simp [setCounter] at hp; subst hp; simp
  | cons q rest ih =>
    intro p hp
    by_cases h : q.1 = n
    · have hb : (q.1 == n) = true := by simpa using h
      simp only [setCounter, hb, if_true] at hp
      rcases List.mem_cons.mp hp with h1 | h1
      · subst h1; simp
      · right; exact List.mem_cons_of_mem _ h1
    · have hb : (q.1 == n) = false := by simpa using h
      simp only [setCounter, hb, Bool.false_eq_true, if_false] at hp
      rcases List.mem_cons.mp hp with h1 | h1
      · subst h1; right; simp
      · rcases ih p h1 with h2 | h2
        · left; exact h2
        · right; exact List.mem_cons_of_mem _ h2

/-! Potential function lemmas. -/

theorem sum_map_update (V : List String) (hV : V.Nodup) (n : String) (hn : n ∈ V)
    (f g : String → Nat) (hne : ∀ m ∈ V, m ≠ n → g m = f m) (hfn : g n + 1 = f n) :
    (V.map g).sum + 1 = (V.map f).sum := by
  induction V with
  | nil => cases hn
  | cons a V ih =>
    have hnd := List.nodup_cons.mp hV
    rcases List.mem_cons.mp hn with h | h
    · subst h
      have hcongr : V.map g = V.map f := by
        apply List.map_congr_left
        intro m hm
        exact hne m (List.mem_cons_of_mem _ hm) (fun e => hnd.1 (e ▸ hm))
      simp only [List.map_cons, List.sum_cons, hcongr]
      omega
    · have ha : a ≠ n := fun e => hnd.1 (e ▸ h)
      have := ih hnd.2 h (fun m hm hmn => hne m (List.mem_cons_of_mem _ hm) hmn)
      simp only [List.map_cons, List.sum_cons, hne a (by simp) ha]
      omega

theorem phi_set (V : List String) (hV : V.Nodup) (initOf : String → Nat)
    (cnt : List (String × Int)) (n : String) (hn : n ∈ V)
    (hpos : 1 ≤ (getCounter cnt n).getD (initOf n : Int)) :
    phi V initOf (setCounter cnt n ((getCounter cnt n).getD (initOf n : Int) - 1)) + 1
      = phi V initOf cnt := by
  unfold phi
  apply sum_map_update V hV n hn _ _
  · intro m hm hmn
    rw [getCounter_set_ne cnt n m _ hmn]
  · rw [getCounter_set_self]
    simp only [Option.getD_some]
    omega

/-! Yield-order certificate. -/

/-- Ordering certificate for the yield list: every element is preceded, within
`prev` plus the earlier part of the list, by all of its predecessor nodes. -/
def TopoOrdered (pred : String → List String) : List String → List String → Prop
  | _, [] => True
  | prev, n :: rest => (∀ p ∈ pred n, p ∈ prev) ∧ TopoOrdered pred (prev ++ [n]) rest

theorem topoOrdered_append_one (pred : String → List String) (out : List String) :
    ∀ (prev : List String) (n : String),
      TopoOrdered pred prev (out ++ [n]) ↔
        TopoOrdered pred prev out ∧ ∀ p ∈ pred n, p ∈ prev ++ out := by
  induction out with
  | nil => intro prev n; simp [TopoOrdered]
  | cons a out ih =>
    intro prev n
    simp only [List.cons_append, TopoOrdered, List.append_eq, ih (prev ++ [a]),
      List.append_assoc, List.singleton_append]
    tauto

theorem topoOrdered_split (pred : String → List String) :
    ∀ (l prev r : List String) (n : String),
      TopoOrdered pred prev (l ++ n :: r) → ∀ p ∈ pred n, p ∈ prev ++ l := by
  intro l
  induction l with
  | nil =>
    intro prev r n h p hp
    simpa using h.1 p hp
  | cons a l ih =>
    intro prev r n h p hp
    have h2 : TopoOrdered pred (prev ++ [a]) (l ++ n :: r) := h.2
    have := ih (prev ++ [a]) r n h2 p hp
    simpa [List.append_assoc] using this

/-! Counting helpers. -/

theorem count_of_nodup (l : List String) (hl : l.Nodup) (m : String) :
    l.count m = if m ∈ l then 1 else 0 := by
  induction l with
  | nil => simp
  | cons a l ih =>
    have hnd := List.nodup_cons.mp hl
    by_cases h : m = a
    · subst h
      simp [List.count_cons_self, ih hnd.2, hnd.1]
    · simp only [List.count_cons_of_ne h, ih hnd.2, List.mem_cons]
      by_cases hm : m ∈ l <;> simp [hm, h]

theorem countP_mem_append_one (out : List String) (n : String) (hn : n ∉ out) :
    ∀ (l : List String), l.Nodup →
      l.countP (fun p => decide (p ∈ out ++ [n]))
        = l.countP (fun p => decide (p ∈ out)) + (if n ∈ l then 1 else 0) := by
  intro l
  induction l with
  | nil => simp
  | cons a l ih =>
    intro hl
    have hnd := List.nodup_cons.mp hl
    by_cases h : a = n
    · subst h
      have h1 : (decide (a ∈ out ++ [a])) = true := by simp
      have h2 : (decide (a ∈ out)) = false := by simpa using hn
      simp only [List.countP_cons, h1, h2, ih hnd.2, if_true, Bool.false_eq_true, if_false]
      have : a ∉ l := hnd.1
      simp [this]
    · have h1 : (decide (a ∈ out ++ [n])) = decide (a ∈ out) := by
        simp [List.mem_append, h]
      simp only [List.countP_cons, h1, ih hnd.2, List.mem_cons]
      have : (n = a) = False := by simp [Ne.symm h]
      by_cases hm : n ∈ l <;> simp [hm, this] <;> omega

/-! Abstract traversal context and walk invariant. -/

/-- Abstract traversal context: node set, successor and predecessor adjacency
and the start node, with the structural facts shared by the walk_down and
walk_up instantiations. -/
structure WalkCtx where
  V : List String
  nextOf : String → List String
  pred : String → List String
  s : String
  nodupV : V.Nodup
  sMem : s ∈ V
  nextMem : ∀ n ∈ V, ∀ m ∈ nextOf n, m ∈ V
  nextNodup : ∀ n ∈ V, (nextOf n).Nodup
  predMem : ∀ n ∈ V, ∀ p ∈ pred n, p ∈ V
  predNodup : ∀ n ∈ V, (pred n).Nodup
  coh : ∀ n ∈ V, ∀ m ∈ V, (m ∈ nextOf n ↔ n ∈ pred m)

/-- Initial counter value of a node: `len(predecessors) or 1`. -/
def WalkCtx.initOf (C : WalkCtx) : String → Nat := fun n => max (C.pred n).length 1

/-- Invariant tying the walk state (worklist of pending visits, counter dict,
yield list) to the edge bookkeeping of the algorithm: a node's consumed visits
equal the visits granted by its already-yielded predecessors (plus one for the
start node) minus the visits still pending on the worklist. -/
structure Inv (C : WalkCtx) (wl : List String) (cnt : List (String × Int))
    (out : List String) : Prop where
  wlMem : ∀ n ∈ wl, n ∈ C.V
  outMem : ∀ n ∈ out, n ∈ C.V
  cntKeys : ∀ p ∈ cnt, p.1 ∈ C.V
  nonneg : ∀ n v, getCounter cnt n = some v → 0 ≤ v
  outNodup : out.Nodup
  yieldIff : ∀ n ∈ C.V, (n ∈ out ↔ getCounter cnt n = some 0)
  countEq : ∀ n ∈ C.V,
    (C.initOf n : Int) - (getCounter cnt n).getD (C.initOf n : Int) + (wl.count n : Int)
      = ((C.pred n).countP (fun p => decide (p ∈ out)) : Int)
        + (if n = C.s then 1 else 0)
  topo : TopoOrdered C.pred [] out

/-- The invariant holds at the start of the walk. -/
theorem inv_init (C : WalkCtx) : Inv C [C.s] [] [] := by
  refine ⟨?_, ?_, ?_, ?_, ?_, ?_, ?_, ?_⟩
  · intro n hn; simp at hn; subst hn; exact C.sMem
  · intro n hn; cases hn
  · intro p hp; cases hp
  · intro n v h; simp [getCounter] at h
  · exact List.nodup_nil
  · intro n _; simp [getCounter]
  · intro n _
    have h1 : getCounter [] n = none := rfl
    rw [h1]
    simp only [Option.getD_none]
    have h2 : ([C.s].count n : Int) = if n = C.s then 1 else 0 := by
      rw [List.count_singleton]
      by_cases h : n = C.s
      · subst h; simp
      · have : (C.s == n) = false := by simpa using (Ne.symm h)
        simp [this, h]
    rw [h2]
    have h3 : (C.pred n).countP (fun p => decide (p ∈ ([] : List String))) = 0 := by
      simp
    simp [h3]
  · trivial

theorem walkAux_nil (nextOf : String → List String) (initOf : String → Nat)
    (keep : String → Bool) (fuel : Nat) (cnt : List (String × Int)) (out : List String) :
    walkAux nextOf initOf keep fuel [] cnt out = .ok (out, cnt) := by
  cases fuel <;> rfl

theorem walkAux_cons (nextOf : String → List String) (initOf : String → Nat)
    (keep : String → Bool) (fuel : Nat) (n : String) (rest : List String)
    (cnt : List (String × Int)) (out : List String) :
    walkAux nextOf initOf keep (fuel + 1) (n :: rest) cnt out =
      if 0 < (getCounter cnt n).getD (initOf n : Int) - 1 then
        walkAux nextOf initOf keep fuel rest
          (setCounter cnt n ((getCounter cnt n).getD (initOf n : Int) - 1)) out
      else if (getCounter cnt n).getD (initOf n : Int) - 1 < 0 then
        .error (.cycle n)
      else
        walkAux nextOf initOf keep fuel (nextOf n ++ rest)
          (setCounter cnt n ((getCounter cnt n).getD (initOf n : Int) - 1))
          (if keep n then out ++ [n] else out) := rfl

/-- Main run lemma: from any invariant state whose potential is below the fuel,
the unfiltered walk terminates successfully (no closed-cycle error, no fuel
exhaustion) in a state that again satisfies the invariant, with an empty
worklist. -/
theorem walkAux_run (C : WalkCtx) (hs : C.pred C.s = []) :
    ∀ (fuel : Nat) (wl : List String) (cnt : List (String × Int)) (out : List String),
      Inv C wl cnt out → phi C.V C.initOf cnt < fuel →
      ∃ out' cnt',
        walkAux C.nextOf C.initOf (fun _ => true) fuel wl cnt out = .ok (out', cnt') ∧
          Inv C [] cnt' out' := by
  intro fuel
  induction fuel with
  | zero => intro wl cnt out _ hphi; omega
  | succ fuel ih =>
    intro wl cnt out hInv hphi
    cases wl with
    | nil => exact ⟨out, cnt, walkAux_nil _ _ _ _ _ _, hInv⟩
    | cons n rest =>
      have hnV : n ∈ C.V := hInv.wlMem n (List.mem_cons_self n rest)
      rw [walkAux_cons]
      set c0 : Int := (getCounter cnt n).getD (C.initOf n : Int) with hc0def
      have hinitNat : 1 ≤ C.initOf n := Nat.le_max_right _ 1
      have hinitI : (1 : Int) ≤ (C.initOf n : Int) := by exact_mod_cast hinitNat
      have hinitLen : ((C.pred n).length : Int) ≤ (C.initOf n : Int) := by
        have : (C.pred n).length ≤ C.initOf n := Nat.le_max_left _ 1
        exact_mod_cast this
      have hc0nn : 0 ≤ c0 := by
        rw [hc0def]
        cases h : getCounter cnt n with
        | none => simpa using le_trans Int.one_nonneg hinitI
        | some v => simpa using hInv.nonneg n v h
      by_cases hA : 0 < c0 - 1
      · -- counter still positive: stop on this depth
        rw [if_pos hA]
        have hc0pos : 1 ≤ c0 := by omega
        have hInv' : Inv C rest (setCounter cnt n (c0 - 1)) out := by
          refine ⟨?_, hInv.outMem, ?_, ?_, hInv.outNodup, ?_, ?_, hInv.topo⟩
          · exact fun m hm => hInv.wlMem m (List.mem_cons_of_mem _ hm)
          · intro p hp
            rcases setCounter_keys cnt n _ p hp with h | h
            · rw [h]; exact hnV
            · exact hInv.cntKeys p h
          · intro m v h
            by_cases hm : m = n
            · subst hm
              rw [getCounter_set_self] at h
              injection h with h; omega
            · rw [getCounter_set_ne _ _ _ _ hm] at h
              exact hInv.nonneg m v h
          · intro m hmV
            by_cases hm : m = n
            · subst hm
              rw [getCounter_set_self]
              constructor
              · intro hmem
                have := (hInv.yieldIff m hmV).mp hmem
                rw [hc0def] at hA
                rw [this] at hA
                simp at hA
              · intro h
                injection h with h
                omega
            · rw [getCounter_set_ne _ _ _ _ hm]
              exact hInv.yieldIff m hmV
          · intro m hmV
            have old := hInv.countEq m hmV
            by_cases hm : m = n
            · subst hm
              rw [getCounter_set_self]
              rw [← hc0def, List.count_cons_self] at old
              simp only [Option.getD_some]
              push_cast at old ⊢
              omega
            · rw [getCounter_set_ne _ _ _ _ hm]
              rw [List.count_cons_of_ne hm] at old
              exact old
        have hphi' := phi_set C.V C.nodupV C.initOf cnt n hnV (by rw [← hc0def]; omega)
        rw [← hc0def] at hphi'
        exact ih rest (setCounter cnt n (c0 - 1)) out hInv' (by omega)
      · by_cases hB : c0 - 1 < 0
        · -- would be the closed-cycle error: impossible from the invariant
          exfalso
          have hc00 : c0 = 0 := by omega
          have hsome : getCounter cnt n = some 0 := by
            cases h : getCounter cnt n with
            | none =>
              rw [hc0def, h] at hc00
              simp at hc00
              exact absurd hc00 (by omega)
            | some v =>
              rw [hc0def, h] at hc00
              simp at hc00
              rw [hc00]
          have hmem : n ∈ out := (hInv.yieldIff n hnV).mpr hsome
          have old := hInv.countEq n hnV
          rw [← hc0def, hc00, List.count_cons_self] at old
          have hcple : (C.pred n).countP (fun p => decide (p ∈ out)) ≤ (C.pred n).length :=
            List.countP_le_length _
          by_cases hns : n = C.s
          · subst hns
            rw [hs] at old
            simp at old
            omega
          · rw [if_neg hns] at old
            push_cast at old
            push_cast at hcple
            omega
        · -- counter reached zero: yield the node and push its next nodes
          rw [if_neg hA, if_neg hB]
          have hc01 : c0 = 1 := by omega
          have hnout : n ∉ out := by
            intro hmem
            have := (hInv.yieldIff n hnV).mp hmem
            rw [hc0def, this] at hc01
            simp at hc01
          have hpredn : ∀ p ∈ C.pred n, p ∈ out := by
            by_cases hns : n = C.s
            · subst hns; rw [hs]; intro p hp; cases hp
            · have old := hInv.countEq n hnV
              rw [← hc0def, hc01, List.count_cons_self, if_neg hns] at old
              have hcple : (C.pred n).countP (fun p => decide (p ∈ out)) ≤ (C.pred n).length :=
                List.countP_le_length _
              have heq : (C.pred n).countP (fun p => decide (p ∈ out)) = (C.pred n).length := by
                push_cast at old; omega
              have := List.countP_eq_length.mp heq
              intro p hp
              simpa using this p hp
          have hkeep : (if (fun (_ : String) => true) n then out ++ [n] else out) = out ++ [n] :=
            rfl
          rw [hkeep]
          have hInv' : Inv C (C.nextOf n ++ rest) (setCounter cnt n (c0 - 1)) (out ++ [n]) := by
            refine ⟨?_, ?_, ?_, ?_, ?_, ?_, ?_, ?_⟩
            · intro m hm
              rcases List.mem_append.mp hm with h | h
              · exact C.nextMem n hnV m h
              · exact hInv.wlMem m (List.mem_cons_of_mem _ h)
            · intro m hm
              rcases List.mem_append.mp hm with h | h
              · exact hInv.outMem m h
              · simp at h; subst h; exact hnV
            · intro p hp
              rcases setCounter_keys cnt n _ p hp with h | h
              · rw [h]; exact hnV
              · exact hInv.cntKeys p h
            · intro m v h
              by_cases hm : m = n
              · subst hm
                rw [getCounter_set_self] at h
                injection h with h; omega
              · rw [getCounter_set_ne _ _ _ _ hm] at h
                exact hInv.nonneg m v h
            · rw [List.nodup_append]
              refine ⟨hInv.outNodup, by simp, ?_⟩
              intro a ha hb
              simp at hb
              exact hnout (hb ▸ ha)
            · intro m hmV
              by_cases hm : m = n
              · subst hm
                rw [getCounter_set_self]
                have h1 : m ∈ out ++ [m] := by simp
                have h2 : c0 - 1 = 0 := by omega
                rw [h2]
                simp [h1]
              · rw [getCounter_set_ne _ _ _ _ hm]
                have h1 : (m ∈ out ++ [n]) ↔ m ∈ out := by simp [hm]
                rw [h1]
                exact hInv.yieldIff m hmV
            · intro m hmV
              have old := hInv.countEq m hmV
              have hcountP := countP_mem_append_one out n hnout (C.pred m) (C.predNodup m hmV)
              have hcnext : (C.nextOf n).count m = if m ∈ C.nextOf n then 1 else 0 :=
                count_of_nodup _ (C.nextNodup n hnV) m
              have hcoh := C.coh n hnV m hmV
              rw [List.count_append]
              by_cases hm : m = n
              · subst hm
                rw [getCounter_set_self]
                simp only [Option.getD_some]
                rw [← hc0def, List.count_cons_self] at old
                by_cases hself : m ∈ C.pred m
                · rw [if_pos hself] at hcountP
                  rw [if_pos (hcoh.mpr hself)] at hcnext
                  by_cases hms : m = C.s
                  · rw [if_pos hms] at old ⊢
                    push_cast at old ⊢
                    omega
                  · rw [if_neg hms] at old ⊢
                    push_cast at old ⊢
                    omega
                · rw [if_neg hself] at hcountP
                  rw [if_neg (fun hmm => hself (hcoh.mp hmm))] at hcnext
                  by_cases hms : m = C.s
                  · rw [if_pos hms] at old ⊢
                    push_cast at old ⊢
                    omega
                  · rw [if_neg hms] at old ⊢
                    push_cast at old ⊢
                    omega
              · rw [getCounter_set_ne _ _ _ _ hm]
                rw [List.count_cons_of_ne hm] at old
                by_cases hnp : n ∈ C.pred m
                · rw [if_pos hnp] at hcountP
                  rw [if_pos (hcoh.mpr hnp)] at hcnext
                  by_cases hms : m = C.s
                  · rw [if_pos hms] at old ⊢
                    push_cast at old ⊢
                    omega
                  · rw [if_neg hms] at old ⊢
                    push_cast at old ⊢
                    omega
                · rw [if_neg hnp] at hcountP
                  rw [if_neg (fun hmm => hnp (hcoh.mp hmm))] at hcnext
                  by_cases hms : m = C.s
                  · rw [if_pos hms] at old ⊢
                    push_cast at old ⊢
                    omega
                  · rw [if_neg hms] at old ⊢
                    push_cast at old ⊢
                    omega
            · refine (topoOrdered_append_one C.pred out [] n).mpr ⟨hInv.topo, ?_⟩
              intro p hp
              simpa using hpredn p hp
          have hphi' := phi_set C.V C.nodupV C.initOf cnt n hnV (by rw [← hc0def]; omega)
          rw [← hc0def] at hphi'
          exact ih (C.nextOf n ++ rest) (setCounter cnt n (c0 - 1)) (out ++ [n]) hInv' (by omega)

/-! Consequences of the terminal invariant. -/

/-- At termination the start node has been yielded. -/
theorem terminal_s_mem (C : WalkCtx) (hs : C.pred C.s = []) (cnt : List (String × Int))
    (out : List String) (hInv : Inv C [] cnt out) : C.s ∈ out := by
  have old := hInv.countEq C.s C.sMem
  rw [hs] at old
  simp only [List.countP_nil, List.count_nil, if_pos rfl, Nat.cast_zero] at old
  have hinit : C.initOf C.s = 1 := by
    simp [WalkCtx.initOf, hs]
  rw [hinit] at old
  cases h : getCounter cnt C.s with
  | none =>
    rw [h] at old
    simp at old
  | some v =>
    rw [h] at old
    simp only [Option.getD_some, Nat.cast_one] at old
    have old2 : (1 : Int) - v = 1 := by simpa using old
    have hv : v = 0 := by omega
    exact (hInv.yieldIff C.s C.sMem).mpr (by rw [h, hv])

/-- At termination an unyielded non-start node with predecessors has an
unyielded predecessor. -/
theorem terminal_unyielded (C : WalkCtx) (cnt : List (String × Int)) (out : List String)
    (hInv : Inv C [] cnt out) (n : String) (hn : n ∈ C.V) (hns : n ≠ C.s)
    (hnout : n ∉ out) (hpne : C.pred n ≠ []) : ∃ p ∈ C.pred n, p ∉ out := by
  have old := hInv.countEq n hn
  rw [if_neg hns] at old
  simp only [List.count_nil, Nat.cast_zero] at old
  have hlen : 1 ≤ (C.pred n).length := by
    cases h : C.pred n with
    | nil => exact absurd h hpne
    | cons a l => simp [h]
  have hinit : C.initOf n = (C.pred n).length := by
    simp only [WalkCtx.initOf]
    exact Nat.max_eq_left hlen
  rw [hinit] at old
  have hlt : (C.pred n).countP (fun p => decide (p ∈ out)) < (C.pred n).length := by
    cases h : getCounter cnt n with
    | none =>
      rw [h] at old
      simp at old
      omega
    | some v =>
      rw [h] at old
      simp only [Option.getD_some] at old
      have hv0 : 0 ≤ v := hInv.nonneg n v h
      have hvne : v ≠ 0 := by
        intro e
        exact hnout ((hInv.yieldIff n hn).mpr (by rw [h, e]))
      omega
  by_contra hcon
  push_neg at hcon
  have hall : ∀ p ∈ C.pred n, (fun p => decide (p ∈ out)) p = true := fun p hp => by
    simpa using hcon p hp
  have := List.countP_eq_length.mpr hall
  omega

/-! Cycle extraction from a predecessor-closed set of unyielded nodes. -/

theorem exists_long_chain (R : String → String → Prop) (U : List String)
    (hstep : ∀ u ∈ U, ∃ p, R u p ∧ p ∈ U) (u0 : String) (hu0 : u0 ∈ U) :
    ∀ k, ∃ l : List String, (u0 :: l).Chain' R ∧ l.length = k ∧ ∀ x ∈ l, x ∈ U := by
  intro k
  induction k with
  | zero => exact ⟨[], List.chain'_singleton u0, rfl, by simp⟩
  | succ k ih =>
    obtain ⟨l, hch, hlen, hmem⟩ := ih
    have hlastMem : (u0 :: l).getLast (by simp) ∈ U := by
      have h1 : (u0 :: l).getLast (by simp) ∈ u0 :: l := List.getLast_mem _
      rcases List.mem_cons.mp h1 with h | h
      · rw [h]; exact hu0
      · exact hmem _ h
    obtain ⟨p, hRp, hpU⟩ := hstep _ hlastMem
    refine ⟨l ++ [p], ?_, by simp [hlen], ?_⟩
    · have heq : (u0 :: (l ++ [p])) = (u0 :: l) ++ [p] := by simp
      rw [heq]
      apply List.Chain'.append hch (List.chain'_singleton p)
      intro x hx y hy
      simp only [List.head?_cons, Option.mem_def, Option.some.injEq] at hy
      have hgl : (u0 :: l).getLast? = some ((u0 :: l).getLast (by simp)) :=
        List.getLast?_eq_getLast _ _
      rw [hgl] at hx
      simp only [Option.mem_def, Option.some.injEq] at hx
      rw [← hy, ← hx]
      exact hRp
    · intro x hx
      rcases List.mem_append.mp hx with h | h
      · exact hmem x h
      · simp at h; rw [h]; exact hpU

theorem exists_dup_split (l : List String) (h : ¬ l.Nodup) :
    ∃ (pre : List String) (a : String) (mid post : List String),
      l = pre ++ a :: mid ++ a :: post := by
  induction l with
  | nil => exact absurd List.nodup_nil h
  | cons x xs ih =>
    by_cases hx : x ∈ xs
    · obtain ⟨s, t, hst⟩ := List.append_of_mem hx
      exact ⟨[], x, s, t, by simp [hst]⟩
    · have hxs : ¬ xs.Nodup := fun hnd => h (List.nodup_cons.mpr ⟨hx, hnd⟩)
      obtain ⟨pre, a, mid, post, he⟩ := ih hxs
      exact ⟨x :: pre, a, mid, post, by simp [he]⟩

theorem length_le_of_nodup_subset (l V : List String) (hnd : l.Nodup)
    (hsub : ∀ x ∈ l, x ∈ V) : l.length ≤ V.length := by
  classical
  have h1 : l.toFinset.card = l.length := List.toFinset_card_of_nodup hnd
  have h2 : l.toFinset ⊆ V.toFinset := by
    intro x hx
    rw [List.mem_toFinset] at hx ⊢
    exact hsub x hx
  have h3 : V.toFinset.card ≤ V.length := V.toFinset_card_le
  have h4 := Finset.card_le_card h2
  omega

theorem chain_segment (R : String → String → Prop) (pre mid post : List String) (a : String)
    (h : (pre ++ a :: mid ++ a :: post).Chain' R) : ((a :: mid) ++ [a]).Chain' R := by
  obtain ⟨hL, hR, hlink⟩ := List.chain'_append.mp h
  have h2 : (a :: mid).Chain' R := (List.chain'_append.mp hL).2.1
  have hns : ((a :: mid).getLast?).isSome := by
    rw [List.getLast?_isSome]
    simp
  have hlast : (pre ++ a :: mid).getLast? = (a :: mid).getLast? := by
    rw [List.getLast?_append, Option.or_of_isSome hns]
  apply List.chain'_append.mpr
  refine ⟨h2, List.chain'_singleton a, ?_⟩
  intro x hx y hy
  simp only [List.head?_cons, Option.mem_def, Option.some.injEq] at hy
  subst hy
  exact hlink x (by rw [hlast]; exact hx) a (by simp)

theorem reachIn_of_chain (nf : String → List String) :
    ∀ (t : List String) (a b : String) (K : Nat),
      (a :: t).Chain' (fun x y => y ∈ nf x) → t.getLast? = some b → t.length ≤ K →
      reachIn nf K a b = true := by
  intro t
  induction t with
  | nil => intro a b K _ hlast _; cases hlast
  | cons c t' ih =>
    intro a b K hch hlast hlen
    have hRac : c ∈ nf a := (List.chain'_cons.mp hch).1
    have hch' : (c :: t').Chain' (fun x y => y ∈ nf x) := (List.chain'_cons.mp hch).2
    cases K with
    | zero => simp at hlen
    | succ K =>
      rw [reachIn, List.any_eq_true]
      cases t' with
      | nil =>
        have hb : c = b := by simpa using hlast
        exact ⟨c, hRac, by simp [hb]⟩
      | cons d t'' =>
        have hlast' : (d :: t'').getLast? = some b := by
          rw [List.getLast?_cons_cons] at hlast
          exact hlast
        have hrec := ih c b K hch' hlast' (by simpa using Nat.le_of_succ_le_succ hlen)
        exact ⟨c, hRac, by simp [hrec]⟩

theorem chain'_imp_mem (P : String → Prop) (R S : String → String → Prop)
    (himp : ∀ x y, P x → P y → R x y → S x y) :
    ∀ l : List String, (∀ x ∈ l, P x) → l.Chain' R → l.Chain' S := by
  intro l
  induction l with
  | nil => intro _ _; exact List.chain'_nil
  | cons x xs ih =>
    intro hP hch
    cases xs with
    | nil => exact List.chain'_singleton x
    | cons y ys =>
      rw [List.chain'_cons] at hch ⊢
      exact ⟨himp x y (hP x (by simp)) (hP y (by simp)) hch.1,
        ih (fun z hz => hP z (List.mem_cons_of_mem _ hz)) hch.2⟩

/-- A nonempty set of nodes each of which has a successor inside the set
forces a directed cycle. -/
theorem cycle_of_closed_set (V : List String) (nf : String → List String)
    (U : List String) (hUV : ∀ u ∈ U, u ∈ V) (u0 : String) (hu0 : u0 ∈ U)
    (hstep : ∀ u ∈ U, ∃ p, p ∈ nf u ∧ p ∈ U) :
    ∃ a ∈ V, reachIn nf V.length a a = true := by
  obtain ⟨l, hch, hlen, hmem⟩ :=
    exists_long_chain (fun x y => y ∈ nf x) U hstep u0 hu0 V.length
  have hndup : ¬ (u0 :: l).Nodup := by
    intro hnd
    have hle := length_le_of_nodup_subset (u0 :: l) V hnd ?_
    · simp only [List.length_cons, hlen] at hle; omega
    · intro x hx
      rcases List.mem_cons.mp hx with h | h
      · exact hUV _ (h ▸ hu0)
      · exact hUV _ (hmem x h)
  obtain ⟨pre, a, mid, post, he⟩ := exists_dup_split _ hndup
  have hch2 : ((a :: mid) ++ [a]).Chain' (fun x y => y ∈ nf x) := by
    apply chain_segment _ pre mid post a
    rw [← he]; exact hch
  have haV : a ∈ V := by
    have hmem2 : a ∈ u0 :: l := by rw [he]; simp
    rcases List.mem_cons.mp hmem2 with h | h
    · exact hUV _ (h ▸ hu0)
    · exact hUV _ (hmem a h)
  have hlenfull : pre.length + mid.length + post.length + 2 = V.length + 1 := by
    have := congrArg List.length he
    simp at this
    omega
  refine ⟨a, haV, ?_⟩
  have hch3 : (a :: (mid ++ [a])).Chain' (fun x y => y ∈ nf x) := by
    simpa using hch2
  exact reachIn_of_chain nf (mid ++ [a]) a a V.length hch3
    (List.getLast?_concat mid) (by simp; omega)

/-- The flipped variant: a nonempty set of nodes each of which has a
predecessor inside the set also forces a directed cycle, obtained by
reversing the predecessor chain. -/
theorem cycle_of_closed_set_flip (V : List String) (nf predf : String → List String)
    (hcoh : ∀ x ∈ V, ∀ y ∈ V, (y ∈ nf x ↔ x ∈ predf y))
    (U : List String) (hUV : ∀ u ∈ U, u ∈ V) (u0 : String) (hu0 : u0 ∈ U)
    (hstep : ∀ u ∈ U, ∃ p, p ∈ predf u ∧ p ∈ U) :
    ∃ a ∈ V, reachIn nf V.length a a = true := by
  obtain ⟨l, hch, hlen, hmem⟩ :=
    exists_long_chain (fun x y => y ∈ predf x) U hstep u0 hu0 V.length
  have hmemFull : ∀ x ∈ u0 :: l, x ∈ U := by
    intro x hx
    rcases List.mem_cons.mp hx with h | h
    · exact h ▸ hu0
    · exact hmem x h
  have hndup : ¬ (u0 :: l).Nodup := by
    intro hnd
    have hle := length_le_of_nodup_subset (u0 :: l) V hnd (fun x hx => hUV _ (hmemFull x hx))
    simp only [List.length_cons, hlen] at hle
    omega
  obtain ⟨pre, a, mid, post, he⟩ := exists_dup_split _ hndup
  have hch2 : ((a :: mid) ++ [a]).Chain' (fun x y => y ∈ predf x) := by
    apply chain_segment _ pre mid post a
    rw [← he]; exact hch
  have hsegMem : ∀ x ∈ (a :: mid) ++ [a], x ∈ V := by
    intro x hx
    apply hUV
    apply hmemFull
    rw [he]
    rcases List.mem_append.mp hx with h | h
    · exact List.mem_append.mpr (Or.inl (List.mem_append.mpr (Or.inr h)))
    · simp at h
      subst h
      exact List.mem_append.mpr (Or.inr (by simp))
  have haV : a ∈ V := hsegMem a (by simp)
  have hch3 : ((a :: mid) ++ [a]).Chain' (flip (fun x y => y ∈ nf x)) :=
    chain'_imp_mem (· ∈ V) _ _
      (fun x y hx hy hr => (hcoh y hy x hx).mpr hr) _ hsegMem hch2
  have hch4 : (((a :: mid) ++ [a]).reverse).Chain' (fun x y => y ∈ nf x) :=
    List.chain'_reverse.mpr hch3
  have hre : ((a :: mid) ++ [a]).reverse = a :: (mid.reverse ++ [a]) := by
    simp
  rw [hre] at hch4
  have hlenfull : pre.length + mid.length + post.length + 2 = V.length + 1 := by
    have := congrArg List.length he
    simp at this
    omega
  refine ⟨a, haV, ?_⟩
  exact reachIn_of_chain nf (mid.reverse ++ [a]) a a V.length hch4
    (List.getLast?_concat _) (by simp; omega)

/-! Order of yields along edges. -/

/-- Position of the first occurrence of a name in the yield list. -/
def idxOf : List String → String → Nat
  | [], _ => 0
  | x :: xs, a => if x = a then 0 else idxOf xs a + 1

theorem idxOf_lt_of_split :
    ∀ (l : List String) (out r : List String) (a b : String), out.Nodup →
      out = l ++ b :: r → a ∈ l → idxOf out a < idxOf out b := by
  intro l
  induction l with
  | nil => intro out r a b _ _ ha; cases ha
  | cons x l ih =>
    intro out r a b hnd he ha
    subst he
    have hx_notin : x ∉ l ++ b :: r := (List.nodup_cons.mp hnd).1
    have hbx : x ≠ b := by
      intro e
      exact hx_notin (by rw [e]; simp)
    rcases List.mem_cons.mp ha with h | h
    · subst h
      rw [List.cons_append]
      have h1 : idxOf (a :: (l ++ b :: r)) a = 0 := by simp [idxOf]
      have h2 : idxOf (a :: (l ++ b :: r)) b = idxOf (l ++ b :: r) b + 1 := by
        simp [idxOf, hbx]
      rw [h1, h2]
      omega
    · have hax : x ≠ a := by
        intro e
        exact hx_notin (e ▸ List.mem_append.mpr (Or.inl h))
      rw [List.cons_append]
      have h1 : idxOf (x :: (l ++ b :: r)) a = idxOf (l ++ b :: r) a + 1 := by
        simp [idxOf, hax]
      have h2 : idxOf (x :: (l ++ b :: r)) b = idxOf (l ++ b :: r) b + 1 := by
        simp [idxOf, hbx]
      rw [h1, h2]
      have := ih (l ++ b :: r) r a b (List.nodup_cons.mp hnd).2 rfl h
      omega

/-- An edge into a yielded node comes from an earlier yielded node. -/
theorem edge_before (C : WalkCtx) (cnt : List (String × Int)) (out : List String)
    (hInv : Inv C [] cnt out) (a c : String) (haV : a ∈ C.V) (hcV : c ∈ C.V)
    (hedge : c ∈ C.nextOf a) (hc : c ∈ out) : a ∈ out ∧ idxOf out a < idxOf out c := by
  have hpred : a ∈ C.pred c := (C.coh a haV c hcV).mp hedge
  obtain ⟨l, r, he⟩ := List.append_of_mem hc
  have hl : ∀ p ∈ C.pred c, p ∈ l := by
    have hsplit := topoOrdered_split C.pred l [] r c (by rw [← he]; exact hInv.topo)
    intro p hp
    simpa using hsplit p hp
  have haIn : a ∈ l := hl a hpred
  refine ⟨by rw [he]; exact List.mem_append.mpr (Or.inl haIn), ?_⟩
  exact idxOf_lt_of_split l out r a c hInv.outNodup he haIn

/-- A node from which a yielded node is reachable is itself yielded, strictly
earlier. -/
theorem reach_before (C : WalkCtx) (cnt : List (String × Int)) (out : List String)
    (hInv : Inv C [] cnt out) :
    ∀ (k : Nat) (a b : String), a ∈ C.V → reachIn C.nextOf k a b = true → b ∈ out →
      a ∈ out ∧ idxOf out a < idxOf out b := by
  intro k
  induction k with
  | zero => intro a b _ hr _; simp [reachIn] at hr
  | succ k ih =>
    intro a b haV hr hb
    rw [reachIn, List.any_eq_true] at hr
    obtain ⟨c, hcmem, hcb⟩ := hr
    have hcV := C.nextMem a haV c hcmem
    have hsplit : c = b ∨ reachIn C.nextOf k c b = true := by
      simpa using hcb
    rcases hsplit with h | h
    · subst h
      exact edge_before C cnt out hInv a c haV hcV hcmem hb
    · obtain ⟨hcOut, hlt⟩ := ih c b hcV h hb
      obtain ⟨haOut, hlt2⟩ := edge_before C cnt out hInv a c haV hcV hcmem hcOut
      exact ⟨haOut, lt_trans hlt2 hlt⟩

/-- The applied filter does not influence the traversal result when the two
filters agree pointwise. -/
theorem walkAux_keep_congr (nextOf : String → List String) (initOf : String → Nat)
    (k1 k2 : String → Bool) (hk : ∀ n, k1 n = k2 n) :
    ∀ (fuel : Nat) (wl : List String) (cnt : List (String × Int)) (out : List String),
      walkAux nextOf initOf k1 fuel wl cnt out = walkAux nextOf initOf k2 fuel wl cnt out := by
  intro fuel
  induction fuel with
  | zero => intro wl cnt out; cases wl <;> rfl
  | succ fuel ih =>
    intro wl cnt out
    cases wl with
    | nil => rfl
    | cons n rest =>
      rw [walkAux_cons, walkAux_cons, hk n]
      by_cases h1 : 0 < (getCounter cnt n).getD (initOf n : Int) - 1
      · rw [if_pos h1, if_pos h1, ih]
      · rw [if_neg h1, if_neg h1]
        by_cases h2 : (getCounter cnt n).getD (initOf n : Int) - 1 < 0
        · rw [if_pos h2, if_pos h2]
        · rw [if_neg h2, if_neg h2, ih]

/-! Structural facts about the adjacency derived from `add`. -/

theorem byName_self (g : List Migration) (hnd : (names g).Nodup) (m : Migration) (hm : m ∈ g) :
    byName g m.name = some m := by
  induction g with
  | nil => cases hm
  | cons a rest ih =>
    simp only [names, List.map_cons, List.nodup_cons] at hnd
    rcases List.mem_cons.mp hm with h | h
    · subst h
      simp [byName]
    · have hane : a.name ≠ m.name := by
        intro e
        exact hnd.1 (e ▸ List.mem_map_of_mem (fun x => x.name) h)
      have hb : (a.name == m.name) = false := by simpa using hane
      simp only [byName, List.find?_cons, hb]
      exact ih (by simpa [names] using hnd.2) h

theorem name_inj (g : List Migration) (hnd : (names g).Nodup) (m1 m2 : Migration)
    (h1 : m1 ∈ g) (h2 : m2 ∈ g) (he : m1.name = m2.name) : m1 = m2 :=
  List.inj_on_of_nodup_map (by simpa [names] using hnd) h1 h2 he

theorem childrenNames_sublist (g : List Migration) (n : String) :
    List.Sublist (childrenNames g n) (names g) := by
  unfold childrenNames names
  exact (List.filter_sublist g).map (fun c => c.name)

theorem parentNames_sublist (g : List Migration) (n : String) :
    List.Sublist (parentNames g n) (names g) := by
  cases h : byName g n with
  | none => simp [parentNames, h]
  | some m =>
    simp only [parentNames, h]
    unfold names
    exact (List.filter_sublist g).map (fun p => p.name)

/-- Coherence of the two adjacency dicts maintained by `add`: the child and
parent views describe the same edge set. -/
theorem mem_children_iff_mem_parents (g : List Migration) (hnd : (names g).Nodup)
    (n m : String) (hn : n ∈ names g) (hm : m ∈ names g) :
    m ∈ childrenNames g n ↔ n ∈ parentNames g m := by
  obtain ⟨mm, hmm, hmmname⟩ : ∃ mi ∈ g, mi.name = m := by
    simpa [names, List.mem_map] using hm
  obtain ⟨nn, hnn, hnnname⟩ : ∃ ni ∈ g, ni.name = n := by
    simpa [names, List.mem_map] using hn
  have hby : byName g m = some mm := by
    rw [← hmmname]; exact byName_self g hnd mm hmm
  constructor
  · intro h
    simp only [childrenNames, List.mem_map, List.mem_filter] at h
    obtain ⟨c, ⟨hcg, hcond⟩, hcname⟩ := h
    have hc_eq : c = mm := name_inj g hnd c mm hcg hmm (by rw [hcname, hmmname])
    subst hc_eq
    rw [Bool.and_eq_true] at hcond
    have hne : c.name ≠ n := by simpa using hcond.1
    have hdep : n ∈ c.dependencies := by simpa using hcond.2
    rw [parentNames, hby]
    simp only [List.mem_map, List.mem_filter]
    refine ⟨nn, ⟨hnn, ?_⟩, hnnname⟩
    rw [Bool.and_eq_true]
    constructor
    · simp only [bne_iff_ne]
      rw [hnnname]
      intro e
      exact hne e.symm
    · rw [hnnname]
      simpa using hdep
  · intro h
    rw [parentNames, hby] at h
    simp only [List.mem_map, List.mem_filter] at h
    obtain ⟨p, ⟨hpg, hcond⟩, hpname⟩ := h
    rw [Bool.and_eq_true] at hcond
    have hne : p.name ≠ mm.name := by simpa using hcond.1
    have hdep : p.name ∈ mm.dependencies := by simpa using hcond.2
    simp only [childrenNames, List.mem_map, List.mem_filter]
    refine ⟨mm, ⟨hmm, ?_⟩, hmmname⟩
    rw [Bool.and_eq_true]
    constructor
    · simp only [bne_iff_ne]
      rw [hmmname] at hne ⊢
      intro e
      exact hne (by rw [hpname, e])
    · rw [← hpname]
      simpa using hdep

/-- Traversal context of `walk_down` on a graph with distinct names. -/
def ctxDown (g : List Migration) (hnd : (names g).Nodup) (s : String) (hs : s ∈ names g) :
    WalkCtx where
  V := names g
  nextOf := childrenNames g
  pred := parentNames g
  s := s
  nodupV := hnd
  sMem := hs
  nextMem := fun n _ m hm => (childrenNames_sublist g n).subset hm
  nextNodup := fun n _ => (childrenNames_sublist g n).nodup hnd
  predMem := fun n _ p hp => (parentNames_sublist g n).subset hp
  predNodup := fun n _ => (parentNames_sublist g n).nodup hnd
  coh := fun n hn m hm => mem_children_iff_mem_parents g hnd n m hn hm

/-- Traversal context of `walk_up`: the same graph with edges reversed. -/
def ctxUp (g : List Migration) (hnd : (names g).Nodup) (s : String) (hs : s ∈ names g) :
    WalkCtx where
  V := names g
  nextOf := parentNames g
  pred := childrenNames g
  s := s
  nodupV := hnd
  sMem := hs
  nextMem := fun n _ m hm => (parentNames_sublist g n).subset hm
  nextNodup := fun n _ => (parentNames_sublist g n).nodup hnd
  predMem := fun n _ p hp => (childrenNames_sublist g n).subset hp
  predNodup := fun n _ => (childrenNames_sublist g n).nodup hnd
  coh := fun n hn m hm => (mem_children_iff_mem_parents g hnd m n hm hn).symm

theorem walk_down_eq (g : List Migration) (m : Migration) (fuel : Nat) :
    walk_down g (some m) false fuel =
      walkAux (childrenNames g) (fun n => max (parentNames g n).length 1) (fun _ => true)
        fuel [m.name] [] [] := by
  unfold walk_down
  exact walkAux_keep_congr _ _ _ _ (fun n => by simp) fuel [m.name] [] []

theorem walk_up_eq (g : List Migration) (m : Migration) (fuel : Nat) :
    walk_up g (some m) false fuel =
      walkAux (parentNames g) (fun n => max (childrenNames g n).length 1) (fun _ => true)
        fuel [m.name] [] [] := by
  unfold walk_up
  exact walkAux_keep_congr _ _ _ _ (fun n => by simp) fuel [m.name] [] []

theorem dep_mem_parentNames (g : List Migration) (hnd : (names g).Nodup) (m : Migration)
    (hm : m ∈ g) (d : String) (hd : d ∈ m.dependencies) (hdg : d ∈ names g)
    (hne : d ≠ m.name) : d ∈ parentNames g m.name := by
  obtain ⟨pd, hpd, hpdname⟩ : ∃ p ∈ g, p.name = d := by
    simpa [names, List.mem_map] using hdg
  rw [parentNames, byName_self g hnd m hm]
  simp only [List.mem_map, List.mem_filter]
  refine ⟨pd, ⟨hpd, ?_⟩, hpdname⟩
  rw [Bool.and_eq_true]
  refine ⟨by simpa [hpdname] using hne, ?_⟩
  rw [hpdname]
  simpa using hd

/-- Full run of `walk_down` from the initial node of a single-source acyclic
graph: it succeeds and yields exactly the node set, in an order respecting the
parent adjacency. -/
theorem walk_down_full (g : List Migration) (s : Migration) (hnd : (names g).Nodup)
    (hinit : initial g = some s)
    (hone : (g.filter (fun m => (parentNames g m.name).isEmpty)).length = 1)
    (hacyc : Acyclic g) (fuel : Nat) (hfuel : fuelBoundDown g ≤ fuel) :
    ∃ out cnt, walk_down g (initial g) false fuel = .ok (out, cnt) ∧ out.Nodup ∧
      (∀ n, n ∈ out ↔ n ∈ names g) ∧ TopoOrdered (parentNames g) [] out := by
  have h0 : g.find? (fun m => (parentNames g m.name).isEmpty) = some s := hinit
  have hsg : s ∈ g := List.mem_of_find?_eq_some h0
  have hsprop : (parentNames g s.name).isEmpty = true := by
    simpa using List.find?_some h0
  have hspred : parentNames g s.name = [] := List.isEmpty_iff.mp hsprop
  have hsV : s.name ∈ names g := List.mem_map_of_mem _ hsg
  set C := ctxDown g hnd s.name hsV with hC
  have hCs : C.pred C.s = [] := hspred
  have hphi : phi C.V C.initOf [] < fuel := by
    have he : phi C.V C.initOf []
        = phi (names g) (fun n => max (parentNames g n).length 1) [] := rfl
    rw [he]
    unfold fuelBoundDown at hfuel
    omega
  obtain ⟨out, cnt, hrun, hInvT⟩ := walkAux_run C hCs fuel [C.s] [] [] (inv_init C) hphi
  rw [hinit, walk_down_eq]
  refine ⟨out, cnt, hrun, hInvT.outNodup, ?_, hInvT.topo⟩
  intro n
  constructor
  · exact fun h => hInvT.outMem n h
  · intro hn
    by_contra hnot
    set U := (names g).filter (fun v => !(out.contains v)) with hU
    have hmemU : ∀ x, x ∈ U ↔ (x ∈ names g ∧ x ∉ out) := by
      intro x
      simp [hU, List.mem_filter]
    have hnU : n ∈ U := (hmemU n).mpr ⟨hn, hnot⟩
    have hsout : C.s ∈ out := terminal_s_mem C hCs cnt out hInvT
    have hstep : ∀ u ∈ U, ∃ p, p ∈ parentNames g u ∧ p ∈ U := by
      intro u hu
      obtain ⟨huV, huout⟩ := (hmemU u).mp hu
      have hus : u ≠ C.s := fun e => huout (e ▸ hsout)
      have hupred : parentNames g u ≠ [] := by
        intro hempty
        obtain ⟨mu, hmu, hmuname⟩ : ∃ mi ∈ g, mi.name = u := by
          simpa [names, List.mem_map] using huV
        obtain ⟨x, hx⟩ := List.length_eq_one.mp hone
        have hsmem : s ∈ g.filter (fun m => (parentNames g m.name).isEmpty) :=
          List.mem_filter.mpr ⟨hsg, hsprop⟩
        have hmumem : mu ∈ g.filter (fun m => (parentNames g m.name).isEmpty) :=
          List.mem_filter.mpr ⟨hmu, by rw [hmuname, hempty]; rfl⟩
        rw [hx] at hsmem hmumem
        simp at hsmem hmumem
        apply hus
        show u = s.name
        rw [← hmuname, hmumem, hsmem]
      obtain ⟨p, hp, hpout⟩ := terminal_unyielded C cnt out hInvT u huV hus huout hupred
      exact ⟨p, hp, (hmemU p).mpr ⟨(parentNames_sublist g u).subset hp, hpout⟩⟩
    obtain ⟨a, haV, hcyc⟩ := cycle_of_closed_set_flip (names g) (childrenNames g)
      (parentNames g) (fun x hx y hy => mem_children_iff_mem_parents g hnd x y hx hy)
      U (fun u hu => ((hmemU u).mp hu).1) n hnU hstep
    rw [hacyc a haV] at hcyc
    cases hcyc

/-- Full run of `walk_up` from the last node of a single-sink acyclic graph. -/
theorem walk_up_full (g : List Migration) (t : Migration) (hnd : (names g).Nodup)
    (hlast : lastMig g = some t)
    (hsink : (g.filter (fun m => (childrenNames g m.name).isEmpty)).length = 1)
    (hacyc : Acyclic g) (fuel : Nat) (hfuel : fuelBoundUp g ≤ fuel) :
    ∃ out cnt, walk_up g (lastMig g) false fuel = .ok (out, cnt) ∧ out.Nodup ∧
      (∀ n, n ∈ out ↔ n ∈ names g) ∧ TopoOrdered (childrenNames g) [] out := by
  have h0 : g.find? (fun m => (childrenNames g m.name).isEmpty) = some t := hlast
  have htg : t ∈ g := List.mem_of_find?_eq_some h0
  have htprop : (childrenNames g t.name).isEmpty = true := by
    simpa using List.find?_some h0
  have htpred : childrenNames g t.name = [] := List.isEmpty_iff.mp htprop
  have htV : t.name ∈ names g := List.mem_map_of_mem _ htg
  set C := ctxUp g hnd t.name htV with hC
  have hCs : C.pred C.s = [] := htpred
  have hphi : phi C.V C.initOf [] < fuel := by
    have he : phi C.V C.initOf []
        = phi (names g) (fun n => max (childrenNames g n).length 1) [] := rfl
    rw [he]
    unfold fuelBoundUp at hfuel
    omega
  obtain ⟨out, cnt, hrun, hInvT⟩ := walkAux_run C hCs fuel [C.s] [] [] (inv_init C) hphi
  rw [hlast, walk_up_eq]
  refine ⟨out, cnt, hrun, hInvT.outNodup, ?_, hInvT.topo⟩
  intro n
  constructor
  · exact fun h => hInvT.outMem n h
  · intro hn
    by_contra hnot
    set U := (names g).filter (fun v => !(out.contains v)) with hU
    have hmemU : ∀ x, x ∈ U ↔ (x ∈ names g ∧ x ∉ out) := by
      intro x
      simp [hU, List.mem_filter]
    have hnU : n ∈ U := (hmemU n).mpr ⟨hn, hnot⟩
    have hsout : C.s ∈ out := terminal_s_mem C hCs cnt out hInvT
    have hstep : ∀ u ∈ U, ∃ p, p ∈ childrenNames g u ∧ p ∈ U := by
      intro u hu
      obtain ⟨huV, huout⟩ := (hmemU u).mp hu
      have hus : u ≠ C.s := fun e => huout (e ▸ hsout)
      have hupred : childrenNames g u ≠ [] := by
        intro hempty
        obtain ⟨mu, hmu, hmuname⟩ : ∃ mi ∈ g, mi.name = u := by
          simpa [names, List.mem_map] using huV
        obtain ⟨x, hx⟩ := List.length_eq_one.mp hsink
        have hsmem : t ∈ g.filter (fun m => (childrenNames g m.name).isEmpty) :=
          List.mem_filter.mpr ⟨htg, htprop⟩
        have hmumem : mu ∈ g.filter (fun m => (childrenNames g m.name).isEmpty) :=
          List.mem_filter.mpr ⟨hmu, by rw [hmuname, hempty]; rfl⟩
        rw [hx] at hsmem hmumem
        simp at hsmem hmumem
        apply hus
        show u = t.name
        rw [← hmuname, hmumem, hsmem]
      obtain ⟨p, hp, hpout⟩ := terminal_unyielded C cnt out hInvT u huV hus huout hupred
      exact ⟨p, hp, (hmemU p).mpr ⟨(childrenNames_sublist g u).subset hp, hpout⟩⟩
    obtain ⟨a, haV, hcyc⟩ := cycle_of_closed_set (names g) (childrenNames g)
      U (fun u hu => ((hmemU u).mp hu).1) n hnU hstep
    rw [hacyc a haV] at hcyc
    cases hcyc

/-- Concrete diamond-shaped migration graph used as a witness input. -/
def gDiamond : List Migration :=
  [⟨"0001_initial", [], false⟩,
   ⟨"0002_left", ["0001_initial"], false⟩,
   ⟨"0003_right", ["0001_initial"], false⟩,
   ⟨"0004_merge", ["0002_left", "0003_right"], false⟩]

/-- Concrete graph in which the nodes A and B form a dependency cycle that is
reachable from the initial node (A depends on I1 and B, B depends on A). -/
def gCycle : List Migration :=
  [⟨"I1", [], false⟩, ⟨"A", ["I1", "B"], false⟩, ⟨"B", ["A"], false⟩]

/-- C1: on a migration graph with distinct names, resolving non-self
dependencies, exactly one parentless node, exactly one childless node and no
directed cycle, `walk_down` started at the initial node with
`unapplied_only=False` succeeds and yields every migration exactly once, each
migration appearing only after all of its declared dependencies. -/
theorem C1_walk_down_topological (g : List Migration) (s : Migration)
    (hnd : (names g).Nodup)
    (hdep : ∀ m ∈ g, ∀ d ∈ m.dependencies, d ∈ names g)
    (hself : ∀ m ∈ g, m.name ∉ m.dependencies)
    (hinit : initial g = some s)
    (hone : (g.filter (fun m => (parentNames g m.name).isEmpty)).length = 1)
    (hsink : (g.filter (fun m => (childrenNames g m.name).isEmpty)).length = 1)
    (hacyc : Acyclic g) (fuel : Nat) (hfuel : fuelBoundDown g ≤ fuel) :
    ∃ out cnt, walk_down g (initial g) false fuel = .ok (out, cnt) ∧
      out.Nodup ∧ (∀ n, n ∈ out ↔ n ∈ names g) ∧
      (∀ l r (m : Migration), m ∈ g → out = l ++ m.name :: r →
        ∀ d ∈ m.dependencies, d ∈ l) := by
  obtain ⟨out, cnt, hrun, hndout, hmem, htopo⟩ :=
    walk_down_full g s hnd hinit hone hacyc fuel hfuel
  refine ⟨out, cnt, hrun, hndout, hmem, ?_⟩
  intro l r m hm he d hd
  have hdg : d ∈ names g := hdep m hm d hd
  have hdne : d ≠ m.name := fun e => hself m hm (e ▸ hd)
  have hdpar : d ∈ parentNames g m.name := dep_mem_parentNames g hnd m hm d hd hdg hdne
  have hsp := topoOrdered_split (parentNames g) l [] r m.name
    (by rw [← he]; exact htopo) d hdpar
  simpa using hsp

/-- C1 witness: the hypotheses hold for the concrete diamond graph, and the
conclusion follows by the theorem. -/
theorem C1_witness :
    ((names gDiamond).Nodup ∧ (∀ m ∈ gDiamond, ∀ d ∈ m.dependencies, d ∈ names gDiamond) ∧
      (∀ m ∈ gDiamond, m.name ∉ m.dependencies) ∧
      initial gDiamond = some ⟨"0001_initial", [], false⟩ ∧
      (gDiamond.filter (fun m => (parentNames gDiamond m.name).isEmpty)).length = 1 ∧
      (gDiamond.filter (fun m => (childrenNames gDiamond m.name).isEmpty)).length = 1 ∧
      Acyclic gDiamond ∧ fuelBoundDown gDiamond ≤ 100) ∧
    (∃ out cnt, walk_down gDiamond (initial gDiamond) false 100 = .ok (out, cnt) ∧
      out.Nodup ∧ (∀ n, n ∈ out ↔ n ∈ names gDiamond) ∧
      (∀ l r (m : Migration), m ∈ gDiamond → out = l ++ m.name :: r →
        ∀ d ∈ m.dependencies, d ∈ l)) :=
  ⟨by decide,
   C1_walk_down_topological gDiamond ⟨"0001_initial", [], false⟩ (by decide) (by decide)
     (by decide) (by decide) (by decide) (by decide) (by decide) 100 (by decide)⟩

/-- C2 counterexample: the graph `gCycle` has a directed cycle through A and B,
both reachable from the initial node I1, yet `walk_down` from the initial node
terminates successfully (no MigrationError at all), yielding only I1. -/
theorem C2_counterexample :
    ((names gCycle).Nodup ∧
      reachIn (childrenNames gCycle) (names gCycle).length "A" "A" = true ∧
      reachIn (childrenNames gCycle) (names gCycle).length "I1" "A" = true ∧
      reachIn (childrenNames gCycle) (names gCycle).length "I1" "B" = true) ∧
    walk_down gCycle (initial gCycle) false 100 =
      .ok (["I1"], [("I1", 0), ("A", 1)]) :=
  ⟨by decide, rfl⟩

/-- C2 (amended): on any migration graph with distinct names, `walk_down`
started at the initial (parentless) node never raises the closed-cycle
MigrationError and never loops: with sufficient fuel it terminates with a
successful result, and no node lying on a directed cycle is ever yielded (the
cycle is silently skipped). -/
theorem C2_amended (g : List Migration) (s : Migration) (hnd : (names g).Nodup)
    (hinit : initial g = some s) (fuel : Nat) (hfuel : fuelBoundDown g ≤ fuel) :
    ∃ out cnt, walk_down g (initial g) false fuel = .ok (out, cnt) ∧
      ∀ n ∈ names g, reachIn (childrenNames g) (names g).length n n = true → n ∉ out := by
  have h0 : g.find? (fun m => (parentNames g m.name).isEmpty) = some s := hinit
  have hsg : s ∈ g := List.mem_of_find?_eq_some h0
  have hsprop : (parentNames g s.name).isEmpty = true := by
    simpa using List.find?_some h0
  have hspred : parentNames g s.name = [] := List.isEmpty_iff.mp hsprop
  have hsV : s.name ∈ names g := List.mem_map_of_mem _ hsg
  set C := ctxDown g hnd s.name hsV with hC
  have hCs : C.pred C.s = [] := hspred
  have hphi : phi C.V C.initOf [] < fuel := by
    have he : phi C.V C.initOf []
        = phi (names g) (fun n => max (parentNames g n).length 1) [] := rfl
    rw [he]
    unfold fuelBoundDown at hfuel
    omega
  obtain ⟨out, cnt, hrun, hInvT⟩ := walkAux_run C hCs fuel [C.s] [] [] (inv_init C) hphi
  rw [hinit, walk_down_eq]
  refine ⟨out, cnt, hrun, ?_⟩
  intro n hn hreach hmem
  obtain ⟨_, hlt⟩ := reach_before C cnt out hInvT (names g).length n n hn hreach hmem
  exact absurd hlt (lt_irrefl _)

/-- C2 witness for the amended claim at the concrete cyclic graph. -/
theorem C2_amended_witness :
    ((names gCycle).Nodup ∧ initial gCycle = some ⟨"I1", [], false⟩ ∧
      fuelBoundDown gCycle ≤ 100) ∧
    (∃ out cnt, walk_down gCycle (initial gCycle) false 100 = .ok (out, cnt) ∧
      ∀ n ∈ names gCycle,
        reachIn (childrenNames gCycle) (names gCycle).length n n = true → n ∉ out) :=
  ⟨by decide, C2_amended gCycle ⟨"I1", [], false⟩ (by decide) (by decide) 100 (by decide)⟩

/-- C6: over a single-source single-sink acyclic migration graph, `walk_up`
from the last node with `applied_only=False` succeeds and yields exactly the
same set of migrations as `walk_down` from the initial node, each migration
only after all of its children in the graph. -/
theorem C6_walk_up_mirror (g : List Migration) (s t : Migration)
    (hnd : (names g).Nodup) (hinit : initial g = some s) (hlast : lastMig g = some t)
    (hone : (g.filter (fun m => (parentNames g m.name).isEmpty)).length = 1)
    (hsink : (g.filter (fun m => (childrenNames g m.name).isEmpty)).length = 1)
    (hacyc : Acyclic g) (fuelD fuelU : Nat)
    (hfD : fuelBoundDown g ≤ fuelD) (hfU : fuelBoundUp g ≤ fuelU) :
    ∃ outD cntD outU cntU,
      walk_down g (initial g) false fuelD = .ok (outD, cntD) ∧
      walk_up g (lastMig g) false fuelU = .ok (outU, cntU) ∧
      (∀ n, n ∈ outU ↔ n ∈ outD) ∧
      (∀ l r n, outU = l ++ n :: r → ∀ c ∈ childrenNames g n, c ∈ l) := by
  obtain ⟨outD, cntD, hrunD, _, hmemD, _⟩ :=
    walk_down_full g s hnd hinit hone hacyc fuelD hfD
  obtain ⟨outU, cntU, hrunU, _, hmemU, htopoU⟩ :=
    walk_up_full g t hnd hlast hsink hacyc fuelU hfU
  refine ⟨outD, cntD, outU, cntU, hrunD, hrunU, ?_, ?_⟩
  · exact fun n => (hmemU n).trans (hmemD n).symm
  · intro l r n he c hc
    have hsp := topoOrdered_split (childrenNames g) l [] r n
      (by rw [← he]; exact htopoU) c hc
    simpa using hsp

/-- C6 witness at the concrete diamond graph. -/
theorem C6_witness :
    ((names gDiamond).Nodup ∧ initial gDiamond = some ⟨"0001_initial", [], false⟩ ∧
      lastMig gDiamond = some ⟨"0004_merge", ["0002_left", "0003_right"], false⟩ ∧
      (gDiamond.filter (fun m => (parentNames gDiamond m.name).isEmpty)).length = 1 ∧
      (gDiamond.filter (fun m => (childrenNames gDiamond m.name).isEmpty)).length = 1 ∧
      Acyclic gDiamond ∧ fuelBoundDown gDiamond ≤ 100 ∧ fuelBoundUp gDiamond ≤ 100) ∧
    (∃ outD cntD outU cntU,
      walk_down gDiamond (initial gDiamond) false 100 = .ok (outD, cntD) ∧
      walk_up gDiamond (lastMig gDiamond) false 100 = .ok (outU, cntU) ∧
      (∀ n, n ∈ outU ↔ n ∈ outD) ∧
      (∀ l r n, outU = l ++ n :: r → ∀ c ∈ childrenNames gDiamond n, c ∈ l)) :=
  ⟨by decide,
   C6_walk_up_mirror gDiamond ⟨"0001_initial", [], false⟩
     ⟨"0004_merge", ["0002_left", "0003_right"], false⟩ (by decide) (by decide) (by decide)
     (by decide) (by decide) (by decide) 100 100 (by decide) (by decide)⟩

/-! ## Type-conversion matrix (fields/registry.py, fields/base.py) -/

/-- Mongoengine field classes referenced by the conversion matrix of
registry.py, together with a few subclasses that exercise ancestor fallback.
Modelled from the spec: mongoengine itself is an external dependency; the
resolver consults a fixed field-type hierarchy. -/
inductive FieldT
  | BaseField | ComplexBaseField
  | StringField | URLField | EmailField | ComplexDateTimeField
  | IntField | LongField | FloatField | DecimalField | BooleanField
  | DateTimeField | DateField
  | ListField | EmbeddedDocumentListField | SortedListField
  | DictField | MapField
  | ReferenceField | CachedReferenceField | LazyReferenceField
  | ObjectIdField | BinaryField | SequenceField | UUIDField
  | EmbeddedDocumentField | DynamicField
deriving DecidableEq, Repr, Fintype

/-- Modelled from the spec: the fixed single-inheritance hierarchy of the
field classes above (child to parent), used by nearest-ancestor lookup. -/
def parentF : FieldT → Option FieldT
  | .BaseField => none
  | .ComplexBaseField => some .BaseField
  | .StringField => some .BaseField
  | .URLField => some .StringField
  | .EmailField => some .URLField
  | .ComplexDateTimeField => some .StringField
  | .IntField => some .BaseField
  | .LongField => some .BaseField
  | .FloatField => some .BaseField
  | .DecimalField => some .BaseField
  | .BooleanField => some .BaseField
  | .DateTimeField => some .BaseField
  | .DateField => some .DateTimeField
  | .ListField => some .ComplexBaseField
  | .EmbeddedDocumentListField => some .ListField
  | .SortedListField => some .ListField
  | .DictField => some .ComplexBaseField
  | .MapField => some .DictField
  | .ReferenceField => some .BaseField
  | .CachedReferenceField => some .BaseField
  | .LazyReferenceField => some .BaseField
  | .ObjectIdField => some .BaseField
  | .BinaryField => some .BaseField
  | .SequenceField => some .BaseField
  | .UUIDField => some .BaseField
  | .EmbeddedDocumentField => some .BaseField
  | .DynamicField => some .BaseField

/-- Converter routines of fields/converters.py, referenced by name in
registry.py.  Their store effects play no role in resolution, so they are
modelled as opaque tags. -/
inductive Converter
  | nothing | deny | to_string | to_int | to_long | to_double | to_decimal
  | to_bool | to_date | to_uuid | to_object_id | item_to_list | extract_from_list
  | drop_field
deriving DecidableEq, Repr

abbrev ConvRow := List (FieldT × Converter)
abbrev ConvMatrix := List (FieldT × ConvRow)

/-- Dict read, `row.get(k)`. -/
def rowLookup (row : ConvRow) (k : FieldT) : Option Converter :=
  (row.find? (fun p => decide (p.1 = k))).map (fun p => p.2)

/-- Dict item assignment `row[k] = v`: replace the existing binding or
append. -/
def setEntry (row : ConvRow) (k : FieldT) (v : Converter) : ConvRow :=
  match row with
  | [] => [(k, v)]
  | p :: rest => if p.1 = k then (k, v) :: rest else p :: setEntry rest k v

/-- COMMON_CONVERTERS of registry.py. -/
def COMMON_CONVERTERS : ConvRow :=
  [(.StringField, .to_string), (.IntField, .to_int), (.LongField, .to_long),
   (.FloatField, .to_double), (.DecimalField, .to_decimal), (.BooleanField, .to_bool),
   (.DateTimeField, .to_date), (.ListField, .item_to_list),
   (.EmbeddedDocumentListField, .deny)]

/-- OBJECTID_CONVERTERS of registry.py. -/
def OBJECTID_CONVERTERS : ConvRow :=
  [(.StringField, .to_string), (.EmbeddedDocumentField, .deny),
   (.ListField, .item_to_list), (.EmbeddedDocumentListField, .deny),
   (.ReferenceField, .nothing), (.LazyReferenceField, .nothing),
   (.ObjectIdField, .nothing)]

/-- The StringField row: COMMON_CONVERTERS extended by the object-id-like and
UUID destinations. -/
def stringRow : ConvRow :=
  setEntry (setEntry (setEntry (setEntry COMMON_CONVERTERS
    .ObjectIdField .to_object_id) .ReferenceField .to_object_id)
    .LazyReferenceField .to_object_id) .UUIDField .to_uuid

/-- The CONVERTION_MATRIX literal of registry.py before the fill loop. -/
def baseMatrix : ConvMatrix :=
  [(.StringField, stringRow),
   (.IntField, COMMON_CONVERTERS), (.LongField, COMMON_CONVERTERS),
   (.FloatField, COMMON_CONVERTERS), (.DecimalField, COMMON_CONVERTERS),
   (.BooleanField, COMMON_CONVERTERS), (.DateTimeField, COMMON_CONVERTERS),
   (.DateField, COMMON_CONVERTERS),
   (.EmbeddedDocumentField,
     [(.DictField, .nothing), (.ReferenceField, .deny), (.ListField, .item_to_list),
      (.EmbeddedDocumentListField, .item_to_list)]),
   (.DynamicField, [(.BaseField, .nothing), (.UUIDField, .to_uuid)]),
   (.ListField,
     [(.EmbeddedDocumentField, .deny), (.EmbeddedDocumentListField, .deny),
      (.DictField, .extract_from_list)]),
   (.EmbeddedDocumentListField,
     [(.EmbeddedDocumentField, .nothing), (.ListField, .nothing),
      (.DictField, .extract_from_list)]),
   (.DictField,
     [(.EmbeddedDocumentField, .deny), (.ListField, .item_to_list),
      (.EmbeddedDocumentListField, .deny)]),
   (.ReferenceField, OBJECTID_CONVERTERS), (.LazyReferenceField, OBJECTID_CONVERTERS),
   (.ObjectIdField, OBJECTID_CONVERTERS),
   (.CachedReferenceField, []),
   (.BinaryField, [(.UUIDField, .to_uuid)]),
   (.SequenceField, [(.BaseField, .nothing)]),
   (.BaseField, [])]

/-- The post-construction fill loop of registry.py: each row receives the
BaseField no-op fallback, the boolean coercion, the drop-field on
SequenceField destination and the same-type identity, in this order; a later
assignment overwrites an earlier one with the same key. -/
def fillRow (k : FieldT) (row : ConvRow) : ConvRow :=
  setEntry (setEntry (setEntry (setEntry row .BaseField .nothing)
    .BooleanField .to_bool) .SequenceField .drop_field) k .nothing

/-- The conversion matrix after the fill loop. -/
def CONVERTION_MATRIX : ConvMatrix :=
  baseMatrix.map (fun p => (p.1, fillRow p.1 p.2))

def matrixLookup (M : ConvMatrix) (k : FieldT) : Option ConvRow :=
  (M.find? (fun p => decide (p.1 = k))).map (fun p => p.2)

def matrixKeys (M : ConvMatrix) : List FieldT := M.map (fun p => p.1)

def rowKeys (row : ConvRow) : List FieldT := row.map (fun p => p.1)

/-- Modelled from the spec: utils.get_closest_parent walks the class hierarchy
upward from the given type and returns the nearest proper ancestor occurring
among the candidates (the hierarchy above has depth at most three, so five
steps suffice). -/
def ancChainAux : Nat → Option FieldT → List FieldT
  | 0, _ => []
  | _, none => []
  | k + 1, some t => t :: ancChainAux k (parentF t)

def ancChain (t : FieldT) : List FieldT := ancChainAux 5 (parentF t)

def get_closest_parent (t : FieldT) (cands : List FieldT) : Option FieldT :=
  (ancChain t).find? (fun a => decide (a ∈ cands))

/-- Resolution logic of CommonFieldType.convert_type (fields/base.py): pick the
converter row by exact source class or, failing that (also when the entry is
an empty dict, which is falsy under the Python `or`), by nearest ancestor;
then pick the converter within the row by exact destination class, else by
nearest ancestor over the row's keys.  A `none` result is the MigrationError
"Type converter not found for convertion". -/
def convert_type (from_f to_f : FieldT) : Option Converter :=
  let type_converters : Option ConvRow :=
    match matrixLookup CONVERTION_MATRIX from_f with
    | some r =>
      if r.isEmpty then
        (get_closest_parent from_f (matrixKeys CONVERTION_MATRIX)).bind
          (fun a => matrixLookup CONVERTION_MATRIX a)
      else some r
    | none =>
      (get_closest_parent from_f (matrixKeys CONVERTION_MATRIX)).bind
        (fun a => matrixLookup CONVERTION_MATRIX a)
  match type_converters with
  | none => none
  | some row =>
    match rowLookup row to_f with
    | some c => some c
    | none => (get_closest_parent to_f (rowKeys row)).bind (fun a => rowLookup row a)

/-- Resolution procedure exactly as the specification words it: exact
(source, destination) pair; else exact source with nearest-ancestor
destination; else nearest-ancestor source with exact destination; else
nearest-ancestor on both axes; unavailable only when no entry exists at any
level. -/
def specResolve (from_f to_f : FieldT) : Option Converter :=
  let level1 := (matrixLookup CONVERTION_MATRIX from_f).bind (fun r => rowLookup r to_f)
  let level2 := (matrixLookup CONVERTION_MATRIX from_f).bind (fun r =>
    (get_closest_parent to_f (rowKeys r)).bind (fun a => rowLookup r a))
  let level3 := (get_closest_parent from_f (matrixKeys CONVERTION_MATRIX)).bind (fun s =>
    (matrixLookup CONVERTION_MATRIX s).bind (fun r => rowLookup r to_f))
  let level4 := (get_closest_parent from_f (matrixKeys CONVERTION_MATRIX)).bind (fun s =>
    (matrixLookup CONVERTION_MATRIX s).bind (fun r =>
      (get_closest_parent to_f (rowKeys r)).bind (fun a => rowLookup r a)))
  ((level1.orElse (fun _ => level2)).orElse (fun _ => level3)).orElse (fun _ => level4)

/-- C4: for every source and destination field type, the convert_type
resolution of fields/base.py computes exactly the four-level lookup the
specification describes, and is unavailable only when no entry exists at any
level. -/
theorem C4_convert_type_resolution :
    ∀ from_f to_f : FieldT, convert_type from_f to_f = specResolve from_f to_f := by
  decide

/-- C9 counterexample: the same-type identity entry is installed after the
boolean-coercion entry, so the Boolean-to-Boolean cell of the built matrix
holds the identity converter, not the boolean coercion the claim asserts for
every row with boolean destination. -/
theorem C9_counterexample :
    (matrixLookup CONVERTION_MATRIX .BooleanField).bind
        (fun r => rowLookup r .BooleanField) = some Converter.nothing ∧
      Converter.nothing ≠ Converter.to_bool := by
  decide

/-- C9 (amended): after the matrix is built every registered source type's row
contains the implicit entries installed after the author-supplied ones: the
same-type identity, the BaseField no-op fallback, boolean coercion for every
destination other than the row's own type, and drop-field on the sequence
destination for every row other than the sequence row itself; at the two
overlapping cells the identity entry, installed last, wins. -/
theorem C9_implicit_entries :
    ∀ k ∈ matrixKeys CONVERTION_MATRIX,
      (matrixLookup CONVERTION_MATRIX k).bind (fun r => rowLookup r k)
          = some Converter.nothing ∧
      (matrixLookup CONVERTION_MATRIX k).bind (fun r => rowLookup r .BaseField)
          = some Converter.nothing ∧
      (k ≠ .BooleanField →
        (matrixLookup CONVERTION_MATRIX k).bind (fun r => rowLookup r .BooleanField)
          = some Converter.to_bool) ∧
      (k ≠ .SequenceField →
        (matrixLookup CONVERTION_MATRIX k).bind (fun r => rowLookup r .SequenceField)
          = some Converter.drop_field) := by
  decide

/-- C9 witness: the amended property instantiated at the StringField row. -/
theorem C9_witness :
    FieldT.StringField ∈ matrixKeys CONVERTION_MATRIX ∧
    ((matrixLookup CONVERTION_MATRIX .StringField).bind (fun r => rowLookup r .StringField)
        = some Converter.nothing ∧
      (matrixLookup CONVERTION_MATRIX .StringField).bind (fun r => rowLookup r .BaseField)
        = some Converter.nothing ∧
      (FieldT.StringField ≠ .BooleanField →
        (matrixLookup CONVERTION_MATRIX .StringField).bind (fun r => rowLookup r .BooleanField)
          = some Converter.to_bool) ∧
      (FieldT.StringField ≠ .SequenceField →
        (matrixLookup CONVERTION_MATRIX .StringField).bind (fun r => rowLookup r .SequenceField)
          = some Converter.drop_field)) :=
  ⟨by decide, C9_implicit_entries .StringField (by decide)⟩

/-! ## Field alter handlers (fields/base.py) -/

/-- Python values appearing in alter diffs and stored documents, including the
UNSET sentinel.  Modelled from the spec: AlterDiff lives in actions/diff.py,
outside the provided core sources; the value universe here covers the types
the handlers inspect. -/
inductive PyVal
  | unset
  | pynone
  | str (s : String)
  | int (n : Int)
  | bool (b : Bool)
  | strList (l : List String)
  | pairList (l : List (String × String))
deriving DecidableEq, Repr

/-- Modelled from the spec: AlterDiff carries the old and new parameter
values, an optional default used to fix non-conforming documents (None when
absent) and the error-policy name. -/
structure AlterDiff where
  old : PyVal
  new : PyVal
  default : PyVal
  error_policy : String
deriving DecidableEq, Repr

/-- Python type tags appearing in _check_diff's isinstance checks. -/
inductive PyType
  | boolT | strT | collectionT
deriving DecidableEq, Repr

/-- isinstance per Python semantics for the checked types; note that a str is
itself a collections.abc.Collection. -/
def isinst : PyVal → PyType → Bool
  | .bool _, .boolT => true
  | .str _, .strT => true
  | .str _, .collectionT => true
  | .strList _, .collectionT => true
  | .pairList _, .collectionT => true
  | _, _ => false

/-- Error outcomes of the alter handlers: a MigrationError with its message,
or an uncaught Python exception (from probing a non-iterable or empty choices
value, or sending a non-array to the store's $nin operator). -/
inductive MigErr
  | migrationError (msg : String)
  | pyError (msg : String)
deriving DecidableEq, Repr

abbrev Document := List (String × PyVal)

/-- A named store collection with its documents. -/
structure MCollection where
  name : String
  docs : List Document
deriving DecidableEq, Repr

def docGet (d : Document) (f : String) : Option PyVal :=
  (d.find? (fun p => p.1 == f)).map (fun p => p.2)

def docSet (d : Document) (f : String) (v : PyVal) : Document :=
  match d with
  | [] => [(f, v)]
  | p :: rest => if p.1 == f then (f, v) :: rest else p :: docSet rest f v

/-- _check_diff of CommonFieldType (fields/base.py): rejects equal old and new
values, UNSET where not permitted, values of the wrong type, and None where
not permitted, in this order. -/
def check_diff (db_field : String) (diff : AlterDiff) (can_be_unset can_be_none : Bool)
    (check_type : Option PyType) : Except MigErr Unit :=
  if diff.new = diff.old then
    .error (.migrationError ("Diff of field " ++ db_field ++
      " has the equal old and new values"))
  else if can_be_unset = false ∧ (diff.new = .unset ∨ diff.old = .unset) then
    .error (.migrationError (db_field ++ " field cannot be UNSET"))
  else if (∃ t, check_type = some t ∧
      ((diff.old ≠ .unset ∧ diff.old ≠ .pynone ∧ isinst diff.old t = false) ∨
        (diff.new ≠ .unset ∧ diff.new ≠ .pynone ∧ isinst diff.new t = false))) then
    .error (.migrationError ("Field " ++ db_field ++
      " diff values must be of the checked type"))
  else if can_be_none = false ∧ (diff.old = .pynone ∨ diff.new = .pynone) then
    .error (.migrationError (db_field ++ " could not be None"))
  else
    .ok ()

/-- update_many with filter (field missing) and a $set of the field: modelled
pymongo bulk update. -/
def updateSetMissing (coll : MCollection) (f : String) (v : PyVal) : MCollection :=
  { coll with docs := coll.docs.map (fun d => if (docGet d f).isSome then d else docSet d f v) }

/-- Documents matching the filter (field $nin choices): value not among the
choices, of a non-string type, or absent ($nin matches missing fields). -/
def ninDocs (docs : List Document) (f : String) (choices : List String) : List Document :=
  docs.filter (fun d =>
    match docGet d f with
    | some (.str s) => decide (s ∉ choices)
    | some _ => true
    | none => true)

/-- update_many with the $nin filter and a $set of the field. -/
def updateSetNin (coll : MCollection) (f : String) (choices : List String) (v : PyVal) :
    MCollection :=
  { coll with docs := coll.docs.map (fun d =>
      match docGet d f with
      | some (.str s) => if s ∈ choices then d else docSet d f v
      | some _ => docSet d f v
      | none => docSet d f v) }

/-- pymongo cursor model: Collection.find returns a lazy cursor whose
`retrieved` attribute counts documents actually fetched and is 0 for a cursor
that has not been iterated.  The source reads `.retrieved` directly on the
result of `find`, without iterating it. -/
structure Cursor where
  results : List Document
  retrieved : Nat
deriving Repr

def findCursor (coll : MCollection) (f : String) (choices : List String) : Cursor :=
  { results := ninDocs coll.docs f choices, retrieved := 0 }

/-- CommonFieldType.change_required (fields/base.py): validate the diff, then,
for an old value other than True and a new value of True, require a default
and backfill it into the documents missing the field. -/
def change_required (coll : MCollection) (db_field : String) (diff : AlterDiff) :
    Except MigErr MCollection :=
  match check_diff db_field diff false false (some .boolT) with
  | .error e => .error e
  | .ok _ =>
    if diff.old ≠ PyVal.bool true ∧ diff.new = PyVal.bool true then
      if diff.default = .pynone then
        .error (.migrationError ("Cannot mark field " ++ coll.name ++ "." ++ db_field ++
          " as required because default value is not set"))
      else
        .ok (updateSetMissing coll db_field diff.default)
    else
      .ok coll

/-- CommonFieldType.change_primary_key (fields/base.py): its own _check_diff
followed by a plain call to change_required; the unique-index part is a
commented-out TODO in the source. -/
def change_primary_key (coll : MCollection) (db_field : String) (diff : AlterDiff) :
    Except MigErr MCollection :=
  match check_diff db_field diff false false (some .boolT) with
  | .error e => .error e
  | .ok _ => change_required coll db_field diff

/-- The effective choices list of change_choices: `next(iter(choices))` probes
the first element and, when it is a list or tuple, the keys are taken.  An
empty or non-iterable choices value raises an uncaught Python exception, and
a plain string reaches the store as a non-array $nin operand, which the store
rejects. -/
def extractChoices : PyVal → Except MigErr (List String)
  | .strList [] => .error (.pyError "StopIteration")
  | .strList l => .ok l
  | .pairList [] => .error (.pyError "StopIteration")
  | .pairList l => .ok (l.map (fun p => p.1))
  | .str s => if s.isEmpty then .error (.pyError "StopIteration")
      else .error (.pyError "nin needs an array")
  | _ => .error (.pyError "TypeError: object is not iterable")

/-- True when the Python expression `default in choices` holds for a choices
list of strings. -/
def defaultInChoices (v : PyVal) (choices : List String) : Bool :=
  match v with
  | .str s => decide (s ∈ choices)
  | _ => false

/-- CommonFieldType.change_choices (fields/base.py): validate the diff,
extract the choices; under the 'raise' policy read the wrong-document count
from the fresh cursor's `retrieved` attribute and fail when it is nonzero;
under the 'replace' policy require the default to be an allowed choice and
overwrite the non-conforming documents with it. -/
def change_choices (coll : MCollection) (db_field : String) (diff : AlterDiff) :
    Except MigErr MCollection :=
  match check_diff db_field diff false true (some .collectionT) with
  | .error e => .error e
  | .ok _ =>
    match extractChoices diff.new with
    | .error e => .error e
    | .ok choices =>
      if diff.error_policy = "raise" ∧ (findCursor coll db_field choices).retrieved ≠ 0 then
        .error (.migrationError ("Cannot migrate choices for " ++ coll.name ++ "." ++
          db_field ++ " because documents with field values not in choices"))
      else if diff.error_policy = "replace" then
        if defaultInChoices diff.default choices then
          .ok (updateSetNin coll db_field choices diff.default)
        else
          .error (.migrationError ("Cannot set new choices for " ++ coll.name ++ "." ++
            db_field ++ " because default value does not listed in choices"))
      else
        .ok coll

/-- Concrete collection with one document whose field value violates the new
choices list. -/
def collWrong : MCollection := { name := "c1", docs := [[("f", PyVal.str "z")]] }

/-- Choices alteration under the strict ('raise') policy. -/
def diffChoicesRaise : AlterDiff :=
  { old := .strList ["a", "z"], new := .strList ["a", "b"],
    default := .pynone, error_policy := "raise" }

/-- C5: under the strict ('raise') policy the nonconforming-document count is
read from `Cursor.retrieved` of a freshly created cursor, which is always 0
because the cursor is never iterated; hence a collection that demonstrably
holds a document violating the new choices (the $nin filter matches exactly
one document) passes unchanged with no MigrationError, against the claim and
the spec, which require counting the nonconforming documents and failing when
any exist. -/
theorem C5_strict_policy_never_raises :
    (ninDocs collWrong.docs "f" ["a", "b"]).length = 1 ∧
      (findCursor collWrong "f" ["a", "b"]).retrieved = 0 ∧
      change_choices collWrong "f" diffChoicesRaise = .ok collWrong :=
  ⟨by decide, rfl, rfl⟩

/-- Collection with one document that misses the field f. -/
def collMissing : MCollection := { name := "c2", docs := [[("g", PyVal.int 1)]] }

/-- A required alteration from None to True with a default supplied. -/
def diffReqNoneOld : AlterDiff :=
  { old := .pynone, new := .bool true, default := .str "x", error_policy := "raise" }

/-- C7 counterexample: required is altered from the non-true old value None to
True and a default is supplied, so the claim asserts the default is set on the
documents missing the field; instead _check_diff rejects the None value first
and change_required raises MigrationError, leaving the store untouched. -/
theorem C7_counterexample :
    change_required collMissing "f" diffReqNoneOld
      = .error (.migrationError ("f could not be None")) := rfl

theorem forall2_map_step (R : Document → Document → Prop) (step : Document → Document)
    (h : ∀ d, R d (step d)) : ∀ l : List Document, List.Forall₂ R l (l.map step) := by
  intro l
  induction l with
  | nil => exact List.Forall₂.nil
  | cons a t ih => exact List.Forall₂.cons (h a) ih

/-- C7 (amended): when required is altered from False (the only non-true old
value that _check_diff admits; None and UNSET are rejected regardless of the
default) to True, change_required raises MigrationError when no default is
supplied and otherwise succeeds, setting the default on exactly the documents
missing the field and leaving every document that contains the field
unchanged. -/
theorem C7_change_required (coll : MCollection) (f : String) (diff : AlterDiff)
    (hold : diff.old = PyVal.bool false) (hnew : diff.new = PyVal.bool true) :
    (diff.default = PyVal.pynone →
      change_required coll f diff = .error (.migrationError
        ("Cannot mark field " ++ coll.name ++ "." ++ f ++
          " as required because default value is not set"))) ∧
    (diff.default ≠ PyVal.pynone →
      ∃ coll', change_required coll f diff = .ok coll' ∧ coll'.name = coll.name ∧
        List.Forall₂ (fun d d' =>
          ((docGet d f).isSome → d' = d) ∧
          (docGet d f = none → d' = docSet d f diff.default)) coll.docs coll'.docs) := by
  obtain ⟨o, n, dflt, pol⟩ := diff
  have hold2 : o = PyVal.bool false := hold
  have hnew2 : n = PyVal.bool true := hnew
  subst hold2
  subst hnew2
  constructor
  · intro hd
    have hd2 : dflt = PyVal.pynone := hd
    subst hd2
    rfl
  · intro hd
    have hd2 : dflt ≠ PyVal.pynone := hd
    refine ⟨updateSetMissing coll f dflt, ?_, rfl, ?_⟩
    · cases dflt with
      | pynone => exact absurd rfl hd2
      | unset => rfl
      | str s => rfl
      | int n => rfl
      | bool b => rfl
      | strList l => rfl
      | pairList l => rfl
    · apply forall2_map_step
      intro d
      constructor
      · intro hsome
        simp [hsome]
      · intro hnone
        have hfalse : (docGet d f).isSome = false := by rw [hnone]; rfl
        simp [hfalse]

/-- A witness collection: one document has the field, one misses it. -/
def collReqWit : MCollection :=
  { name := "c3", docs := [[("f", PyVal.str "v")], [("g", PyVal.int 3)]] }

/-- A required alteration from False to True with a supplied default. -/
def diffReqWit : AlterDiff :=
  { old := .bool false, new := .bool true, default := .str "x", error_policy := "raise" }

/-- C7 witness at a concrete collection and diff. -/
theorem C7_witness :
    (diffReqWit.old = PyVal.bool false ∧ diffReqWit.new = PyVal.bool true) ∧
    ((diffReqWit.default = PyVal.pynone →
      change_required collReqWit "f" diffReqWit = .error (.migrationError
        ("Cannot mark field " ++ collReqWit.name ++ "." ++ "f" ++
          " as required because default value is not set"))) ∧
    (diffReqWit.default ≠ PyVal.pynone →
      ∃ coll', change_required collReqWit "f" diffReqWit = .ok coll' ∧
        coll'.name = collReqWit.name ∧
        List.Forall₂ (fun d d' =>
          ((docGet d "f").isSome → d' = d) ∧
          (docGet d "f" = none → d' = docSet d "f" diffReqWit.default))
          collReqWit.docs coll'.docs)) :=
  ⟨by decide, C7_change_required collReqWit "f" diffReqWit rfl rfl⟩

/-- A primary-key alteration from UNSET to True with a default supplied. -/
def diffPkUnset : AlterDiff :=
  { old := .unset, new := .bool true, default := .str "y", error_policy := "raise" }

/-- C10 counterexample: primary_key is altered from the non-true old value
UNSET to true and a default is supplied, so the claim asserts the default is
backfilled into the documents missing the field; instead _check_diff rejects
UNSET and change_primary_key raises MigrationError, leaving the store
untouched. -/
theorem C10_counterexample :
    change_primary_key collMissing "f" diffPkUnset
      = .error (.migrationError ("f field cannot be UNSET")) := rfl

/-- C10 (amended): change_primary_key behaves exactly as change_required on
the same diff and collection, returning identical results in every case (its
own _check_diff call duplicates the one change_required performs first), and
in particular performs no uniqueness-related store change: the unique-index
part of the handler is commented out in the source. -/
theorem C10_primary_key_eq_required :
    ∀ (coll : MCollection) (f : String) (diff : AlterDiff),
      change_primary_key coll f diff = change_required coll f diff := by
  intro coll f diff
  unfold change_primary_key
  cases h : check_diff f diff false false (some .boolT) with
  | error e =>
    unfold change_required
    rw [h]
  | ok u => rfl

/-! ## Action-chain synthesis (actions/factory.py) -/

abbrev FieldDesc := List (String × PyVal)
abbrev DocSchema := List (String × FieldDesc)
abbrev Schema := List (String × DocSchema)

def assocGet {α : Type} (l : List (String × α)) (k : String) : Option α :=
  (l.find? (fun p => p.1 == k)).map (fun p => p.2)

def assocSet {α : Type} (l : List (String × α)) (k : String) (v : α) : List (String × α) :=
  match l with
  | [] => [(k, v)]
  | p :: rest => if p.1 == k then (k, v) :: rest else p :: assocSet rest k v

def assocDel {α : Type} (l : List (String × α)) (k : String) : List (String × α) :=
  l.filter (fun p => p.1 != k)

/-- Order-insensitive dict equality at one level, values compared by the given
test: every left key exists on the right with an equal value, and every right
key exists on the left. -/
def dictEqBy {α : Type} (eqv : α → α → Bool) (a b : List (String × α)) : Bool :=
  a.all (fun p => match assocGet b p.1 with
    | some w => eqv p.2 w
    | none => false)
  && b.all (fun p => (assocGet a p.1).isSome)

/-- Python dict equality of two schema snapshots (`right_schema !=
left_schema` in the source): same keys with equal values at every level,
insertion order ignored. -/
def schemaEq (a b : Schema) : Bool :=
  dictEqBy (dictEqBy (dictEqBy (fun v w => decide (v = w)))) a b

/-- Modelled from the spec: elementary schema edits in the style of the
dictdiffer library the synthesizer uses (add key, remove key, change value)
at the three levels of a schema snapshot. -/
inductive SEdit
  | addDoc (dt : String) (v : DocSchema)
  | removeDoc (dt : String)
  | addField (dt f : String) (v : FieldDesc)
  | removeField (dt f : String)
  | addParam (dt f p : String) (v : PyVal)
  | removeParam (dt f p : String)
  | changeParam (dt f p : String) (v : PyVal)
deriving DecidableEq, Repr

/-- Modelled from the spec: `patch(edits, a)` applies the elementary edits to
a schema snapshot, returning the updated copy. -/
def applyEdit (s : Schema) : SEdit → Schema
  | .addDoc dt v => assocSet s dt v
  | .removeDoc dt => assocDel s dt
  | .addField dt f v =>
    match assocGet s dt with
    | some d => assocSet s dt (assocSet d f v)
    | none => s
  | .removeField dt f =>
    match assocGet s dt with
    | some d => assocSet s dt (assocDel d f)
    | none => s
  | .addParam dt f p v =>
    match assocGet s dt with
    | some d =>
      match assocGet d f with
      | some fd => assocSet s dt (assocSet d f (assocSet fd p v))
      | none => s
    | none => s
  | .removeParam dt f p =>
    match assocGet s dt with
    | some d =>
      match assocGet d f with
      | some fd => assocSet s dt (assocSet d f (assocDel fd p))
      | none => s
    | none => s
  | .changeParam dt f p v =>
    match assocGet s dt with
    | some d =>
      match assocGet d f with
      | some fd => assocSet s dt (assocSet d f (assocSet fd p v))
      | none => s
    | none => s

def patchS (edits : List SEdit) (s : Schema) : Schema := edits.foldl applyEdit s

/-- Modelled from the spec: `diff(a, b)` produces elementary edits sufficient
to transform a into b; removals first, then additions and changes in right
key order. -/
def diffDesc (dt f : String) (a b : FieldDesc) : List SEdit :=
  (a.filter (fun p => (assocGet b p.1).isNone)).map (fun p => SEdit.removeParam dt f p.1)
    ++ b.filterMap (fun p =>
      match assocGet a p.1 with
      | none => some (SEdit.addParam dt f p.1 p.2)
      | some w => if w = p.2 then none else some (SEdit.changeParam dt f p.1 p.2))

def diffDoc (dt : String) (a b : DocSchema) : List SEdit :=
  (a.filter (fun p => (assocGet b p.1).isNone)).map (fun p => SEdit.removeField dt p.1)
    ++ b.foldl (fun acc p =>
      match assocGet a p.1 with
      | none => acc ++ [SEdit.addField dt p.1 p.2]
      | some w => acc ++ diffDesc dt p.1 w p.2) []

/-- The residual diff between two schema snapshots. -/
def diffS (a b : Schema) : List SEdit :=
  (a.filter (fun p => (assocGet b p.1).isNone)).map (fun p => SEdit.removeDoc p.1)
    ++ b.foldl (fun acc p =>
      match assocGet a p.1 with
      | none => acc ++ [SEdit.addDoc p.1 p.2]
      | some w => acc ++ diffDoc p.1 w p.2) []

/-- Modelled from the spec: an Action instance produced by build_object; the
synthesizer consumes only its to_schema_patch method. -/
structure ActionObj where
  toSchemaPatch : Schema → List SEdit

/-- Modelled from the spec: a registered Action Type with its ordering
priority and its predicate-constructor build_object; document-level types are
keyed by a document type, field-level types by a document type and a field
name. -/
inductive ActionCls
  | documentA (priority : Nat) (build : String → Schema → Schema → Option ActionObj)
  | fieldA (priority : Nat) (build : String → String → Schema → Schema → Option ActionObj)

def ActionCls.priority : ActionCls → Nat
  | .documentA p _ => p
  | .fieldA p _ => p

/-- Modelled from the spec and the tests: the reserved name marker by which
embedded document types are distinguished (flags.py is outside the provided
sources; the tests use names like "~Schema1EmbDoc1"). -/
def embeddedDocMark : String := "~"

def schemaKeys (s : Schema) : List String := s.map (fun p => p.1)

/-- get_all_document_types of factory.py: the union of the document types of
both schemas, embedded document types ordered before collection types.  The
source takes the union of two dict key views, a Python set whose iteration
order is unspecified; the embedding fixes left keys first, then the
right-only keys. -/
def get_all_document_types (left right : Schema) : List String :=
  let all := schemaKeys left
    ++ (schemaKeys right).filter (fun k => !(schemaKeys left).contains k)
  all.filter (fun c => c.startsWith embeddedDocMark)
    ++ all.filter (fun c => !(c.startsWith embeddedDocMark))

/-- build_document_action_chain of factory.py: run build_object once per
document type, patch the generator's local working schema after each accepted
action, and yield the actions. -/
def build_document_action_chain (build : String → Schema → Schema → Option ActionObj)
    (left right : Schema) (dts : List String) : List ActionObj :=
  (dts.foldl (fun (st : Schema × List ActionObj) dt =>
      match build dt st.1 right with
      | some a => (patchS (a.toSchemaPatch st.1) st.1, st.2 ++ [a])
      | none => st)
    (left, [])).2

def docFields (s : Schema) (dt : String) : List String :=
  match assocGet s dt with
  | some d => d.map (fun p => p.1)
  | none => []

/-- build_field_action_chain of factory.py: per document type, run
build_object over the union of the field names present in either schema (a
Python set in the source; the embedding fixes left fields first, then the
right-only fields). -/
def build_field_action_chain (build : String → String → Schema → Schema → Option ActionObj)
    (left right : Schema) (dts : List String) : List ActionObj :=
  (dts.foldl (fun (st : Schema × List ActionObj) dt =>
      let all_fields := docFields st.1 dt
        ++ (docFields right dt).filter (fun f => !(docFields st.1 dt).contains f)
      all_fields.foldl (fun st2 f =>
        match build dt f st2.1 right with
        | some a => (patchS (a.toSchemaPatch st2.1) st2.1, st2.2 ++ [a])
        | none => st2) st)
    (left, [])).2

def runActionCls (cls : ActionCls) (left right : Schema) (dts : List String) :
    List ActionObj :=
  match cls with
  | .documentA _ build => build_document_action_chain build left right dts
  | .fieldA _ build => build_field_action_chain build left right dts

/-- Stable insertion sort by ascending priority, matching Python's stable
`sorted(registry, key=priority)`: an element moves before another only when
its priority is strictly smaller. -/
def insertByPriority (a : ActionCls) : List ActionCls → List ActionCls
  | [] => [a]
  | b :: rest =>
    if a.priority < b.priority then a :: b :: rest else b :: insertByPriority a rest

def sortByPriority (l : List ActionCls) : List ActionCls :=
  l.foldr insertByPriority []

/-- The pass loop of build_actions_chain: registry sorted by priority (stable
sort, as Python's sorted); each Action Type contributes its detected actions,
after which the outer working schema is advanced by re-applying every
action's patch and the document-type list is recomputed. -/
def synthesizeAll (registry : List ActionCls) (left right : Schema) :
    Schema × List ActionObj :=
  (sortByPriority registry).foldl
    (fun (st : Schema × List ActionObj) cls =>
      let dts := get_all_document_types st.1 right
      let new_actions := runActionCls cls st.1 right dts
      let left' := new_actions.foldl (fun l a => patchS (a.toSchemaPatch l) l) st.1
      (left', st.2 ++ new_actions))
    (left, [])

/-- ActionError of exceptions.py as raised by build_actions_chain, carrying
only its message string. -/
inductive ActionErr
  | actionError (msg : String)
deriving DecidableEq, Repr

/-- The fixed message of the divergence error in build_actions_chain. -/
def divergedMsg : String :=
  "Could not reach current schema after applying whole Action chain. This could be a problem in some Action which does not react to schema change it should react or produces wrong schema diff"

/-- build_actions_chain of actions/factory.py: run every registered Action
Type in priority order over the working schema, then compare the working
schema with the right schema using Python dict equality; on mismatch the
residual diff is printed to stdout and ActionError is raised with the fixed
message above, else the action chain is returned. -/
def build_actions_chain (registry : List ActionCls) (left right : Schema) :
    Except ActionErr (List ActionObj) :=
  let st := synthesizeAll registry left right
  if schemaEq right st.1 then .ok st.2 else .error (.actionError divergedMsg)

/-- C3 (amended): build_actions_chain returns the action chain exactly when
the patched working left schema is structurally equal to the right schema;
otherwise it raises ActionError whose message is the fixed string — the
residual diff is printed to standard output, not carried in the raised
error. -/
theorem C3_divergence_check (registry : List ActionCls) (left right : Schema) :
    (schemaEq right (synthesizeAll registry left right).1 = true →
      build_actions_chain registry left right
        = .ok (synthesizeAll registry left right).2) ∧
    (schemaEq right (synthesizeAll registry left right).1 = false →
      build_actions_chain registry left right = .error (.actionError divergedMsg)) := by
  constructor
  · intro h
    unfold build_actions_chain
    simp [h]
  · intro h
    unfold build_actions_chain
    simp [h]

def schemaL0 : Schema := [("Doc", [("f", [("db_field", PyVal.str "f")])])]
def schemaR0 : Schema := []
def schemaL1 : Schema := []
def schemaR1 : Schema := [("Other", [])]

/-- C3 counterexample: two divergent runs with different residual diffs raise
exactly the same ActionError value (the fixed message), so the raised error
does not include the residual diff; only the returned-versus-raised split of
the claim holds. -/
theorem C3_counterexample :
    build_actions_chain [] schemaL0 schemaR0 = .error (.actionError divergedMsg) ∧
    build_actions_chain [] schemaL1 schemaR1 = .error (.actionError divergedMsg) ∧
    diffS schemaL0 schemaR0 ≠ diffS schemaL1 schemaR1 :=
  ⟨rfl, rfl, by decide⟩

/-- C3 witness: the amended claim applied at a concrete divergent input. -/
theorem C3_witness :
    schemaEq schemaR0 (synthesizeAll [] schemaL0 schemaR0).1 = false ∧
    build_actions_chain [] schemaL0 schemaR0 = .error (.actionError divergedMsg) :=
  ⟨rfl, (C3_divergence_check [] schemaL0 schemaR0).2 rfl⟩

end MG
